import Mathlib

namespace MortonKey

def partition (n : Nat) : Nat :=
  let n1 := (n ^^^ (n <<< 8)) &&& 0x00ff00ff
  let n2 := (n1 ^^^ (n1 <<< 4)) &&& 0x0f0f0f0f
  let n3 := (n2 ^^^ (n2 <<< 2)) &&& 0x33333333
  (n3 ^^^ (n3 <<< 1)) &&& 0x55555555

def morton2 (x y : Nat) : Nat := partition x + (partition y <<< 1)

def reconstruct (n : Nat) : Nat :=
  let n0 := n &&& 0x55555555
  let n1 := (n0 ||| (n0 >>> 1)) &&& 0x33333333
  let n2 := (n1 ||| (n1 >>> 2)) &&& 0x0f0f0f0f
  let n3 := (n2 ||| (n2 >>> 4)) &&& 0x00ff00ff
  (n3 ||| (n3 >>> 8)) &&& 0x0000ffff

def new (x y : Nat) : Nat := morton2 (x % 65536) (y % 65536)

def newU32 (x y : Nat) : Nat := morton2 x y

def asPoint (k : Nat) : Nat × Nat := (reconstruct k, reconstruct (k >>> 1))

end MortonKey

def isqrtIter : Nat → Nat → Nat → Nat
  | 0, _, guess => guess
  | fuel+1, n, guess =>
    let next := (guess + n / guess) / 2
    if next < guess then isqrtIter fuel n next else guess

def isqrt (n : Nat) : Nat := if n ≤ 1 then n else isqrtIter n n (n / 2)

/-- Point as in lib.rs: pair of u32 coordinates. -/
abbrev Point := Nat × Nat

/-- Value payload, a u32 in the source. -/
abbrev Value := Nat

/-- Source lib.rs Point::dist: signed 32-bit differences, squares summed in
i32, converted to f32, square root, truncated back to u32.  Modelled with the
exact integer square root of the exact squared sum; the model coincides with
the source pipeline when the squared sum stays small (no i32 overflow, the
sum exactly representable in f32, and the correctly rounded f32 root
truncating to the integer root) - in particular at the squared sums of at
most 5 arising in every concrete evaluation of dist in this file. -/
def Point.dist (a b : Point) : Nat :=
  let dx : Int := (a.1 : Int) - (b.1 : Int)
  let dy : Int := (a.2 : Int) - (b.2 : Int)
  isqrt (dx * dx + dy * dy).toNat

namespace Quadtree

def DE_BRUIJN_BIT_POS : List Nat :=
  [0, 9, 1, 10, 13, 21, 2, 29, 11, 14, 16, 18, 22, 25, 3, 30,
   8, 12, 20, 28, 15, 17, 24, 7, 19, 27, 23, 6, 26, 5, 4, 31]

def msbSmear (v : Nat) : Nat :=
  let v1 := v ||| (v >>> 1)
  let v2 := v1 ||| (v1 >>> 2)
  let v3 := v2 ||| (v2 >>> 4)
  let v4 := v3 ||| (v3 >>> 8)
  v4 ||| (v4 >>> 16)

def deBruijnIndex (v : Nat) : Nat := ((v * 0x07c4acdd) % 4294967296) >>> 27

def msbDeBruijn (v : Nat) : Nat := DE_BRUIJN_BIT_POS.getD (deBruijnIndex (msbSmear v)) 0

def u32not (x : Nat) : Nat := 0xffffffff ^^^ x

def implLitmaxBigmin (a b diffMsb : Nat) : Nat × Nat :=
  let prefix2 := 1 <<< diffMsb
  let prefix1 := prefix2 - 1
  let mask := u32not ((u32not prefix2) &&& prefix1)
  let z := (a &&& b) &&& mask
  (z ||| prefix1, z ||| prefix2)

def litmaxBigmin (mortonmin : Nat) (p1 : Point) (mortonmax : Nat) (p2 : Point) : Nat × Nat :=
  let diff := mortonmin ^^^ mortonmax
  let diffMsb := msbDeBruijn diff
  if diffMsb &&& 1 = 0 then
    let r := implLitmaxBigmin p1.1 p2.1 (diffMsb / 2)
    (MortonKey.newU32 r.1 p2.2, MortonKey.newU32 r.2 p1.2)
  else
    let r := implLitmaxBigmin p1.2 p2.2 (diffMsb / 2)
    let y1 := r.1 ||| p1.2
    (MortonKey.newU32 p2.1 y1, MortonKey.newU32 p1.1 r.2)

def inSpannedBox (q p1 p2 : Point) : Prop :=
  min p1.1 p2.1 ≤ q.1 ∧ q.1 ≤ max p1.1 p2.1 ∧ min p1.2 p2.2 ≤ q.2 ∧ q.2 ≤ max p1.2 p2.2

instance (q p1 p2 : Point) : Decidable (inSpannedBox q p1 p2) := by
  unfold inSpannedBox; infer_instance

end Quadtree

/-- Rust std slice::binary_search loop (size-halving with left and right bounds). -/
def binarySearchLoop : Nat → List Nat → Nat → Nat → Nat → Except Nat Nat
  | 0, _, _, left, _ => .error left
  | fuel+1, ks, key, left, right =>
    if left < right then
      let mid := left + (right - left) / 2
      let k := ks.getD mid 0
      if k < key then binarySearchLoop fuel ks key (mid + 1) right
      else if key < k then binarySearchLoop fuel ks key left mid
      else .ok mid
    else .error left

def binarySearch (ks : List Nat) (key : Nat) : Except Nat Nat :=
  binarySearchLoop (ks.length + 1) ks key 0 ks.length

/-- One row of the table: Morton key, position, value.  sorting.rs keeps three
coupled slices and swaps all three on every exchange; the row form states that
lockstep (spec section 9 records the equivalence). -/
abbrev Row := Nat × Point × Value

def dfltRow : Row := (0, (0, 0), 0)

/-- Median-of-three pivot selection from sorting.rs sort_partition: the three
index variables are conditionally exchanged, then the median index is used. -/
def pivotIndex (l : List Row) : Nat :=
  let len := l.length
  let lim := len - 1
  let k := fun i => (l.getD i dfltRow).1
  let first := 0
  let last := lim
  let median := len / 2
  let p1 := if k last < k median then (last, median) else (median, last)
  let p2 := if k p1.2 < k first then (first, p1.2) else (p1.2, first)
  let median2 := if k p1.1 < k p2.2 then p2.2 else p1.1
  median2

def listSwap {α : Type} (l : List α) (i j : Nat) : List α :=
  match l[i]?, l[j]? with
  | some a, some b => (l.set i b).set j a
  | _, _ => l

def lomutoRot (h : List Row) : List Row :=
  match h with
  | [] => []
  | x :: t => t ++ [x]

/-- The Lomuto partition loop of sort_partition expressed on the region
decomposition lows ++ highs ++ rest: a swap of positions i and j moves the
new low element in front and rotates the high region. -/
def lomutoLoop (pivot : Nat) (l : List Row) : List Row × List Row :=
  l.foldl (fun (st : List Row × List Row) x =>
    if x.1 < pivot then (st.1 ++ [x], lomutoRot st.2) else (st.1, st.2 ++ [x])) ([], [])

def sortPartition (l : List Row) : List Row × Row × List Row :=
  let lim := l.length - 1
  let pi := pivotIndex l
  let pivotRow := l.getD pi dfltRow
  let l2 := listSwap l pi lim
  let st := lomutoLoop pivotRow.1 (l2.take lim)
  (st.1, pivotRow, lomutoRot st.2)

def qsortAux : Nat → List Row → List Row
  | 0, l => l
  | fuel+1, l =>
    if l.length < 2 then l
    else
      let p := sortPartition l
      qsortAux fuel p.1 ++ p.2.1 :: qsortAux fuel p.2.2

def sortRows (l : List Row) : List Row := qsortAux l.length l

def POS_MASK : Nat := 0x7fff

structure MortonTable where
  skipstep : Nat
  skiplist : List Nat
  keys : List Nat
  positions : List Point
  values : List Value
deriving DecidableEq

namespace MortonTable

def new : MortonTable := ⟨0, List.replicate 8 0, [], [], []⟩

/-- clear from mod.rs: note that skipstep is not reset by the source. -/
def clear (t : MortonTable) : MortonTable :=
  { t with keys := [], skiplist := List.replicate 8 0, values := [], positions := [] }

def rebuildSkipList (t : MortonTable) : MortonTable :=
  let len := t.keys.length
  let step := len / 7
  let t2 := { t with skipstep := step }
  if step = 0 then
    match t.keys.getLast? with
    | some k => { t2 with skiplist := t2.skiplist.set 0 k }
    | none => t2
  else
    let idxs := ((List.range' 0 ((len + step - 1) / step) step).drop 1).take 8
    { t2 with skiplist := idxs.enum.foldl (fun sl ik => sl.set ik.1 (t.keys.getD ik.2 0)) t2.skiplist }

def intersects (_t : MortonTable) (p : Point) : Bool :=
  (p.1 &&& POS_MASK == p.1) && (p.2 &&& POS_MASK == p.2)

def insert (t : MortonTable) (id : Point) (row : Value) : MortonTable × Option Point :=
  if !(t.intersects id) then (t, some id)
  else
    let key := MortonKey.newU32 id.1 id.2
    let ind := match binarySearch t.keys key with
      | .ok i => i
      | .error i => i
    (rebuildSkipList
      { t with keys := t.keys.insertIdx ind key,
               positions := t.positions.insertIdx ind id,
               values := t.values.insertIdx ind row }, none)

/-- extend from mod.rs: push all rows, sort the three arrays, rebuild the skip
index.  The source asserts that every point is in range (panic otherwise). -/
def extend (t : MortonTable) (items : List (Point × Value)) : MortonTable :=
  let keys := t.keys ++ items.map (fun pv => MortonKey.new pv.1.1 pv.1.2)
  let positions := t.positions ++ items.map Prod.fst
  let values := t.values ++ items.map Prod.snd
  let rows := sortRows (keys.zip (positions.zip values))
  rebuildSkipList
    { t with keys := rows.map (fun r => r.1),
             positions := rows.map (fun r => r.2.1),
             values := rows.map (fun r => r.2.2) }

def fromIterator (items : List (Point × Value)) : MortonTable := extend new items

/-- Reinterpret a u32 bit pattern as the signed i32 value. -/
def toI32 (n : Nat) : Int := if n < 2147483648 then (n : Int) else (n : Int) - 4294967296

/-- Scalar semantics of find_key_partition_sse2: count of skip samples that
compare signed-less-than the probe key. -/
def findKeyPartition (skiplist : List Nat) (key : Nat) : Nat :=
  skiplist.countP (fun s => toI32 s < toI32 key)

def findKeyMorton (t : MortonTable) (key : Nat) : Except Nat Nat :=
  let step := t.skipstep
  if step = 0 then binarySearch t.keys key
  else
    let index := findKeyPartition t.skiplist key
    let be :=
      if index < 8 then
        let b := index * step
        (b, min t.keys.length (b + step + 1))
      else
        (t.keys.length - step - 3, t.keys.length)
    match binarySearch ((t.keys.drop be.1).take (be.2 - be.1)) key with
    | .ok i => .ok (i + be.1)
    | .error i => .error (i + be.1)

def findKey (t : MortonTable) (id : Point) : Except Nat Nat :=
  t.findKeyMorton (MortonKey.new id.1 id.2)

def getById (t : MortonTable) (id : Point) : Option Value :=
  if !(t.intersects id) then none
  else match t.findKey id with
    | .ok i => some (t.values.getD i 0)
    | .error _ => none

def containsKey (t : MortonTable) (id : Point) : Bool :=
  if !(t.intersects id) then false
  else match t.findKey id with
    | .ok _ => true
    | .error _ => false

/-- The debug radius precondition of find_in_range, exactly as written in the
source: radius & 0xefff == radius. -/
def radiusCheck (radius : Nat) : Bool := radius &&& 0xefff == radius

def findInRangeImpl (t : MortonTable) :
    Nat → Point → Nat → Nat → Nat → List (Point × Value) → List (Point × Value)
  | 0, _, _, _, _, out => out
  | fuel+1, center, radius, mn, mx, out =>
    let imn := match t.findKeyMorton mn with
      | .ok i => (i, t.positions.getD i (0, 0))
      | .error i => (i, MortonKey.asPoint mn)
    let imx := match t.findKeyMorton mx with
      | .ok i => (i + 1, t.positions.getD i (0, 0))
      | .error i => (i, MortonKey.asPoint mx)
    if imx.1 < imn.1 then out
    else if 16 < imx.1 - imn.1 then
      let lb := Quadtree.litmaxBigmin mn imn.2 mx imx.2
      let out2 := t.findInRangeImpl fuel center radius mn lb.1 out
      t.findInRangeImpl fuel center radius lb.2 mx out2
    else
      out ++ (List.range' imn.1 (imx.1 - imn.1)).filterMap (fun i =>
        let id := t.positions.getD i (0, 0)
        if Point.dist center id < radius then some (id, t.values.getD i 0) else none)

/-- find_in_range of mod.rs.  The debug radius assert is modelled separately by
radiusCheck; the fuel bounds the LITMAX/BIGMIN recursion depth, which in the
intended regime shrinks mx - mn at every level. -/
def findInRange (t : MortonTable) (center : Point) (radius : Nat)
    (out : List (Point × Value)) : List (Point × Value) :=
  let mn := MortonKey.new (max ((center.1 : Int) - (radius : Int)) 0).toNat
                          (max ((center.2 : Int) - (radius : Int)) 0).toNat
  let mx := MortonKey.new (center.1 + radius) (center.2 + radius)
  t.findInRangeImpl (mx - mn + 1) center radius mn mx out

def delete (t : MortonTable) (id : Point) : MortonTable × Option Value :=
  if !(t.containsKey id) then (t, none)
  else match t.findKey id with
    | .ok ind =>
      ({ t with keys := t.keys.eraseIdx ind,
                positions := t.positions.eraseIdx ind,
                values := t.values.eraseIdx ind },
        some (t.values.getD ind 0))
    | .error _ => (t, none)

def bounds (_t : MortonTable) : Point × Point := ((0, 0), (POS_MASK + 1, POS_MASK + 1))

end MortonTable

def LEN_CHILDREN : Nat := 16

inductive QTree where
  | leaf (lo hi : Point) (items : List (Point × Value))
  | node (lo hi : Point) (c0 c1 c2 c3 : QTree)
deriving DecidableEq

namespace QTree

def lo : QTree → Point
  | .leaf l _ _ => l
  | .node l _ _ _ _ _ => l

def hi : QTree → Point
  | .leaf _ h _ => h
  | .node _ h _ _ _ _ => h

/-- Quadtree::default: full box (0,0) to (0xffff, 0xffff), empty bucket. -/
def dflt : QTree := .leaf (0, 0) (0xffff, 0xffff) []

def intersects (t : QTree) (p : Point) : Bool :=
  decide (t.lo.1 ≤ p.1) && decide (t.lo.2 ≤ p.2) && decide (p.1 ≤ t.hi.1) && decide (p.2 ≤ t.hi.2)

def intersectsAabb (t : QTree) (l h : Point) : Bool :=
  if t.hi.1 < l.1 || t.lo.1 > h.1 then false
  else if t.hi.2 < l.2 || t.lo.2 > h.2 then false
  else true

/-- The four fresh quadrant children built by split. -/
def splitChildren (l h : Point) : QTree × QTree × QTree × QTree :=
  let rx := (h.1 - l.1) / 2
  let ry := (h.2 - l.2) / 2
  (.leaf (l.1 + rx, l.2) (h.1, l.2 + ry) [],
   .leaf (l.1 + rx, l.2 + ry) (h.1, h.2) [],
   .leaf (l.1, l.2 + ry) (l.1 + rx, h.2) [],
   .leaf (l.1, l.2) (l.1 + rx, l.2 + ry) [])

/-- Quadtree::insert with explicit recursion fuel: a full leaf splits into four
quadrants, redistributes its items and retries; a node tries the children in
order.  The Bool result mirrors Ok/Err of the source. -/
def insert : Nat → QTree → Point → Value → QTree × Bool
  | 0, t, _, _ => (t, false)
  | fuel+1, t, p, v =>
    if !(t.intersects p) then (t, false)
    else
      match t with
      | .leaf l h items =>
        if items.length < LEN_CHILDREN then (.leaf l h (items ++ [(p, v)]), true)
        else
          let c := splitChildren l h
          let base : QTree := .node l h c.1 c.2.1 c.2.2.1 c.2.2.2
          let t2 := items.foldl (fun acc it => (insert fuel acc it.1 it.2).1) base
          insert fuel t2 p v
      | .node l h c0 c1 c2 c3 =>
        let r0 := insert fuel c0 p v
        if r0.2 then (.node l h r0.1 c1 c2 c3, true)
        else
          let r1 := insert fuel c1 p v
          if r1.2 then (.node l h c0 r1.1 c2 c3, true)
          else
            let r2 := insert fuel c2 p v
            if r2.2 then (.node l h c0 c1 r2.1 c3, true)
            else
              let r3 := insert fuel c3 p v
              if r3.2 then (.node l h c0 c1 c2 r3.1, true)
              else (t, false)

/-- Fuel bound for insert: the box of width at most 2^16 can be halved at most
16 times before it degenerates, and each level costs a bounded number of
recursive insert steps. -/
def insertFuel : Nat := 256

def extend (t : QTree) (items : List (Point × Value)) : QTree :=
  items.foldl (fun acc pv => (insert insertFuel acc pv.1 pv.2).1) t

def findInRangeImpl (center : Point) (radius : Nat) (l h : Point) :
    QTree → List (Point × Value) → List (Point × Value)
  | t, out =>
    if !(t.intersectsAabb l h) then out
    else
      match t with
      | .leaf _ _ items => out ++ items.filter (fun pv => Point.dist pv.1 center ≤ radius)
      | .node _ _ c0 c1 c2 c3 =>
        let o0 := findInRangeImpl center radius l h c0 out
        let o1 := findInRangeImpl center radius l h c1 o0
        let o2 := findInRangeImpl center radius l h c2 o1
        findInRangeImpl center radius l h c3 o2

def findInRange (t : QTree) (center : Point) (radius : Nat)
    (out : List (Point × Value)) : List (Point × Value) :=
  let l : Point := (center.1 - radius, center.2 - radius)
  let h : Point := (center.1 + radius, center.2 + radius)
  findInRangeImpl center radius l h t out

def getById : QTree → Point → Option Value
  | t, p =>
    if !(t.intersects p) then none
    else
      match t with
      | .leaf _ _ items => (items.find? (fun pv => pv.1 == p)).map Prod.snd
      | .node _ _ c0 c1 c2 c3 =>
        match getById c0 p with
        | some v => some v
        | none =>
          match getById c1 p with
          | some v => some v
          | none =>
            match getById c2 p with
            | some v => some v
            | none => getById c3 p

def containsKey : QTree → Point → Bool
  | t, p =>
    if !(t.intersects p) then false
    else
      match t with
      | .leaf _ _ items => items.any (fun pv => pv.1 == p)
      | .node _ _ c0 c1 c2 c3 =>
        containsKey c0 p || containsKey c1 p || containsKey c2 p || containsKey c3 p

end QTree

def rowLe (r s : Row) : Prop := r.1 ≤ s.1

def tableInv (t : MortonTable) : Prop :=
  t.keys.Sorted (fun a b => a ≤ b) ∧ t.keys.length = t.positions.length
    ∧ t.keys.length = t.values.length

inductive Reachable : MortonTable → Prop where
  | new : Reachable MortonTable.new
  | insert (t : MortonTable) (p : Point) (v : Value) :
      Reachable t → Reachable (t.insert p v).1
  | extend (t : MortonTable) (items : List (Point × Value)) :
      Reachable t → (∀ pv ∈ items, t.intersects pv.1 = true) → Reachable (t.extend items)
  | delete (t : MortonTable) (p : Point) : Reachable t → Reachable (t.delete p).1
  | clear (t : MortonTable) : Reachable t → Reachable t.clear

def skipInv (t : MortonTable) : Prop :=
  t.skipstep = t.keys.length / 7 ∧
  (t.skipstep = 0 → t.keys ≠ [] → t.skiplist.getD 0 0 = t.keys.getD (t.keys.length - 1) 0) ∧
  (0 < t.skipstep →
    ∀ i, i < min 8 ((t.keys.length + t.skipstep - 1) / t.skipstep - 1) →
      t.skiplist.getD i 0 = t.keys.getD ((i + 1) * t.skipstep) 0)

/-- Number of skip-list slots rebuild_skip_list writes for a key array of the
given length: none when the array is empty with step = 0, one (the last key)
when step = 0 on a nonempty array, and min(8, ceil(len/step) - 1) sampled
slots when step = len / 7 is positive. -/
def skipSamples (len : Nat) : Nat :=
  if len / 7 = 0 then (if len = 0 then 0 else 1)
  else min 8 ((len + len / 7 - 1) / (len / 7) - 1)

/-- Helper recursion for the interleave arithmetic: spreadAux writes the bits
of n to the even positions. -/
def spreadAux : Nat → Nat → Nat
  | 0, _ => 0
  | _+1, 0 => 0
  | fuel+1, n+1 => (n+1) % 2 + 4 * spreadAux fuel ((n+1) / 2)

def spreadR (n : Nat) : Nat := spreadAux n n

/-- One row of the parallel arrays as built from an input pair. -/
def toRow (pv : Point × Value) : Row := (MortonKey.new pv.1.1 pv.1.2, pv.1, pv.2)

/-- The sorted row list a fresh table built from the pair list S holds. -/
def rowsOf (S : List (Point × Value)) : List Row := sortRows (S.map toRow)

namespace MortonKey

theorem tb_ff00ff (j : Nat) : (0x00ff00ff : Nat).testBit j = decide (j < 32 ∧ j % 16 < 8) := by
  rcases Nat.lt_or_ge j 32 with h | h
  · have hb : ∀ j, j < 32 → (0x00ff00ff : Nat).testBit j = decide (j < 32 ∧ j % 16 < 8) := by decide
    exact hb j h
  · have : (0x00ff00ff : Nat) < 2 ^ j :=
      lt_of_lt_of_le (by norm_num) (Nat.pow_le_pow_right (by norm_num) h)
    simp [Nat.testBit_lt_two_pow this]
    omega

theorem tb_0f0f (j : Nat) : (0x0f0f0f0f : Nat).testBit j = decide (j < 32 ∧ j % 8 < 4) := by
  rcases Nat.lt_or_ge j 32 with h | h
  · have hb : ∀ j, j < 32 → (0x0f0f0f0f : Nat).testBit j = decide (j < 32 ∧ j % 8 < 4) := by decide
    exact hb j h
  · have : (0x0f0f0f0f : Nat) < 2 ^ j :=
      lt_of_lt_of_le (by norm_num) (Nat.pow_le_pow_right (by norm_num) h)
    simp [Nat.testBit_lt_two_pow this]
    omega

theorem tb_3333 (j : Nat) : (0x33333333 : Nat).testBit j = decide (j < 32 ∧ j % 4 < 2) := by
  rcases Nat.lt_or_ge j 32 with h | h
  · have hb : ∀ j, j < 32 → (0x33333333 : Nat).testBit j = decide (j < 32 ∧ j % 4 < 2) := by decide
    exact hb j h
  · have : (0x33333333 : Nat) < 2 ^ j :=
      lt_of_lt_of_le (by norm_num) (Nat.pow_le_pow_right (by norm_num) h)
    simp [Nat.testBit_lt_two_pow this]
    omega

theorem tb_5555 (j : Nat) : (0x55555555 : Nat).testBit j = decide (j < 32 ∧ j % 2 = 0) := by
  rcases Nat.lt_or_ge j 32 with h | h
  · have hb : ∀ j, j < 32 → (0x55555555 : Nat).testBit j = decide (j < 32 ∧ j % 2 = 0) := by decide
    exact hb j h
  · have : (0x55555555 : Nat) < 2 ^ j :=
      lt_of_lt_of_le (by norm_num) (Nat.pow_le_pow_right (by norm_num) h)
    simp [Nat.testBit_lt_two_pow this]
    omega

theorem tb_ffff (j : Nat) : (0x0000ffff : Nat).testBit j = decide (j < 16) := by
  rcases Nat.lt_or_ge j 16 with h | h
  · have hb : ∀ j, j < 16 → (0x0000ffff : Nat).testBit j = decide (j < 16) := by decide
    exact hb j h
  · have : (0x0000ffff : Nat) < 2 ^ j :=
      lt_of_lt_of_le (by norm_num) (Nat.pow_le_pow_right (by norm_num) h)
    simp [Nat.testBit_lt_two_pow this]
    omega

theorem bitHigh {n : Nat} {B : Nat} (hB : n < 2 ^ B) : ∀ i, B ≤ i → n.testBit i = false :=
  fun i hi => Nat.testBit_lt_two_pow (lt_of_lt_of_le hB (Nat.pow_le_pow_right (by norm_num) hi))

theorem testBit_partition (n : Nat) (hn : n < 65536) (j : Nat) :
    (partition n).testBit j = (decide (j % 2 = 0) && n.testBit (j / 2)) := by
  have hnb : ∀ i, 16 ≤ i → n.testBit i = false := bitHigh (show n < 2 ^ 16 by omega)
  have h0 : ∀ j, n.testBit j = (decide (j < 32 ∧ j % 32 < 16) && n.testBit (16 * (j / 32) + j % 32)) := by
    intro j
    by_cases hj : j < 32 ∧ j % 32 < 16
    · have e : 16 * (j / 32) + j % 32 = j := by omega
      simp [hj, e]
    · have e : n.testBit j = false := by
        rcases Nat.lt_or_ge j 16 with h16 | h16
        · exact absurd (by omega) hj
        · exact hnb j h16
      simp [hj, e]
  set m1 := (n ^^^ (n <<< 8)) &&& 0x00ff00ff with hm1
  set m2 := (m1 ^^^ (m1 <<< 4)) &&& 0x0f0f0f0f with hm2
  set m3 := (m2 ^^^ (m2 <<< 2)) &&& 0x33333333 with hm3
  have h1 : ∀ j, ((n ^^^ (n <<< 8)) &&& 0x00ff00ff).testBit j
      = (decide (j < 32 ∧ j % 16 < 8) && n.testBit (8 * (j / 16) + j % 16)) := by
    intro j
    simp only [Nat.testBit_and, Nat.testBit_xor, Nat.testBit_shiftLeft, tb_ff00ff]
    by_cases hj : j < 32 ∧ j % 16 < 8
    · rw [h0 j, h0 (j - 8)]
      by_cases hA : j % 32 < 8
      · have e1 : j < 32 ∧ j % 32 < 16 := by omega
        have e3 : 16 * (j / 32) + j % 32 = 8 * (j / 16) + j % 16 := by omega
        by_cases hs : 8 ≤ j
        · have e2 : ¬ ((j - 8) < 32 ∧ (j - 8) % 32 < 16) := by omega
          simp [hj, e1, e2, hs, e3]
        · simp [hj, e1, hs, e3]
      · have e1 : ¬ (j % 32 < 16) := by omega
        have hs : 8 ≤ j := by omega
        have e2 : (j - 8) < 32 ∧ (j - 8) % 32 < 16 := by omega
        have e3 : 16 * ((j - 8) / 32) + (j - 8) % 32 = 8 * (j / 16) + j % 16 := by omega
        simp [hj, e1, hs, e2, e3]
    · rcases (show ¬ (j < 32) ∨ ¬ (j % 16 < 8) by omega) with hc | hc
      · simp [hc]
      · simp [hc]
  have h2 : ∀ j, ((m1 ^^^ (m1 <<< 4)) &&& 0x0f0f0f0f).testBit j
      = (decide (j < 32 ∧ j % 8 < 4) && n.testBit (4 * (j / 8) + j % 8)) := by
    intro j
    simp only [Nat.testBit_and, Nat.testBit_xor, Nat.testBit_shiftLeft, tb_0f0f]
    by_cases hj : j < 32 ∧ j % 8 < 4
    · rw [h1 j, h1 (j - 4)]
      by_cases hA : j % 16 < 4
      · have e1 : j < 32 ∧ j % 16 < 8 := by omega
        have e3 : 8 * (j / 16) + j % 16 = 4 * (j / 8) + j % 8 := by omega
        by_cases hs : 4 ≤ j
        · have e2 : ¬ ((j - 4) < 32 ∧ (j - 4) % 16 < 8) := by omega
          simp [hj, e1, e2, hs, e3]
        · simp [hj, e1, hs, e3]
      · have e1 : ¬ (j % 16 < 8) := by omega
        have hs : 4 ≤ j := by omega
        have e2 : (j - 4) < 32 ∧ (j - 4) % 16 < 8 := by omega
        have e3 : 8 * ((j - 4) / 16) + (j - 4) % 16 = 4 * (j / 8) + j % 8 := by omega
        simp [hj, e1, hs, e2, e3]
    · rcases (show ¬ (j < 32) ∨ ¬ (j % 8 < 4) by omega) with hc | hc
      · simp [hc]
      · simp [hc]
  have h3 : ∀ j, ((m2 ^^^ (m2 <<< 2)) &&& 0x33333333).testBit j
      = (decide (j < 32 ∧ j % 4 < 2) && n.testBit (2 * (j / 4) + j % 4)) := by
    intro j
    simp only [Nat.testBit_and, Nat.testBit_xor, Nat.testBit_shiftLeft, tb_3333]
    by_cases hj : j < 32 ∧ j % 4 < 2
    · rw [h2 j, h2 (j - 2)]
      by_cases hA : j % 8 < 2
      · have e1 : j < 32 ∧ j % 8 < 4 := by omega
        have e3 : 4 * (j / 8) + j % 8 = 2 * (j / 4) + j % 4 := by omega
        by_cases hs : 2 ≤ j
        · have e2 : ¬ ((j - 2) < 32 ∧ (j - 2) % 8 < 4) := by omega
          simp [hj, e1, e2, hs, e3]
        · simp [hj, e1, hs, e3]
      · have e1 : ¬ (j % 8 < 4) := by omega
        have hs : 2 ≤ j := by omega
        have e2 : (j - 2) < 32 ∧ (j - 2) % 8 < 4 := by omega
        have e3 : 4 * ((j - 2) / 8) + (j - 2) % 8 = 2 * (j / 4) + j % 4 := by omega
        simp [hj, e1, hs, e2, e3]
    · rcases (show ¬ (j < 32) ∨ ¬ (j % 4 < 2) by omega) with hc | hc
      · simp [hc]
      · simp [hc]
  have h4 : ∀ j, ((m3 ^^^ (m3 <<< 1)) &&& 0x55555555).testBit j
      = (decide (j < 32 ∧ j % 2 = 0) && n.testBit (1 * (j / 2) + j % 2)) := by
    intro j
    simp only [Nat.testBit_and, Nat.testBit_xor, Nat.testBit_shiftLeft, tb_5555]
    by_cases hj : j < 32 ∧ j % 2 = 0
    · rw [h3 j, h3 (j - 1)]
      by_cases hA : j % 4 < 1
      · have e1 : j < 32 ∧ j % 4 < 2 := by omega
        have e3 : 2 * (j / 4) + j % 4 = 1 * (j / 2) + j % 2 := by omega
        by_cases hs : 1 ≤ j
        · have e2 : ¬ ((j - 1) < 32 ∧ (j - 1) % 4 < 2) := by omega
          simp [hj, e1, e2, hs, e3]
        · simp [hj, e1, hs, e3]
      · have e1 : ¬ (j % 4 < 2) := by omega
        have hs : 1 ≤ j := by omega
        have e2 : (j - 1) < 32 ∧ (j - 1) % 4 < 2 := by omega
        have e3 : 2 * ((j - 1) / 4) + (j - 1) % 4 = 1 * (j / 2) + j % 2 := by omega
        simp [hj, e1, hs, e2, e3]
    · rcases (show ¬ (j < 32) ∨ ¬ (j % 2 = 0) by omega) with hc | hc
      · simp [hc]
      · simp [hc]
  have hfin : partition n = (m3 ^^^ (m3 <<< 1)) &&& 0x55555555 := by
    simp only [partition, hm1, hm2, hm3]
  rw [hfin, h4 j]
  by_cases he : j % 2 = 0
  · by_cases hj32 : j < 32
    · have e : 1 * (j / 2) + j % 2 = j / 2 := by omega
      simp [he, hj32, e]
    · have e1 : n.testBit (j / 2) = false := hnb _ (by omega)
      have e : 1 * (j / 2) + j % 2 = j / 2 := by omega
      simp [he, hj32, e, e1]
  · simp [he]

theorem testBit_reconstruct (m : Nat) (j : Nat) :
    (reconstruct m).testBit j = (decide (j < 16) && m.testBit (2 * j)) := by
  set r0 := m &&& 0x55555555 with hr0def
  have hr0 : ∀ j, r0.testBit j = (decide (j < 32 ∧ j % 2 < 1) && m.testBit (2 * (j / 2) + 2 * (j % 2))) := by
    intro j
    rw [hr0def]
    simp only [Nat.testBit_and, tb_5555]
    by_cases hj : j < 32 ∧ j % 2 < 1
    · have ha : j < 32 ∧ j % 2 = 0 := by omega
      have e : 2 * (j / 2) + 2 * (j % 2) = j := by omega
      have eb : 2 * (j / 2) = j := by omega
      simp [hj, ha, e, eb]
    · rcases (show ¬ (j < 32) ∨ ¬ (j % 2 = 0) by omega) with hc | hc
      · simp [hc]
      · simp [hc, show ¬ (j % 2 < 1) by omega]
  set r1 := (r0 ||| (r0 >>> 1)) &&& 0x33333333 with hm1
  set r2 := (r1 ||| (r1 >>> 2)) &&& 0x0f0f0f0f with hm2
  set r3 := (r2 ||| (r2 >>> 4)) &&& 0x00ff00ff with hm3
  have hr1 : ∀ j, ((r0 ||| (r0 >>> 1)) &&& 0x33333333).testBit j
      = (decide (j < 32 ∧ j % 4 < 2) && m.testBit (4 * (j / 4) + 2 * (j % 4))) := by
    intro j
    simp only [Nat.testBit_and, Nat.testBit_lor, Nat.testBit_shiftRight, tb_3333]
    by_cases hj : j < 32 ∧ j % 4 < 2
    · rw [hr0 j, hr0 (1 + j)]
      by_cases hA : j % 2 < 1
      · have e1 : j < 32 ∧ j % 2 < 1 := by omega
        have e2 : ¬ ((1 + j) % 2 < 1) := by omega
        have e3b : 2 * (j / 2) = 4 * (j / 4) + 2 * (j % 4) := by omega
        have e4 : 2 * (j % 2) = 0 := by omega
        simp [hj, e1, e2, e3b, e4]
      · have e1 : ¬ (j % 2 < 1) := by omega
        have e2 : (1 + j) < 32 ∧ (1 + j) % 2 < 1 := by omega
        have e3b : 2 * ((1 + j) / 2) = 4 * (j / 4) + 2 * (j % 4) := by omega
        have e4 : 2 * ((1 + j) % 2) = 0 := by omega
        simp [hj, e1, e2, e3b, e4]
    · rcases (show ¬ (j < 32) ∨ ¬ (j % 4 < 2) by omega) with hc | hc
      · simp [hc]
      · simp [hc]
  have hr2 : ∀ j, ((r1 ||| (r1 >>> 2)) &&& 0x0f0f0f0f).testBit j
      = (decide (j < 32 ∧ j % 8 < 4) && m.testBit (8 * (j / 8) + 2 * (j % 8))) := by
    intro j
    simp only [Nat.testBit_and, Nat.testBit_lor, Nat.testBit_shiftRight, tb_0f0f]
    by_cases hj : j < 32 ∧ j % 8 < 4
    · rw [hr1 j, hr1 (2 + j)]
      by_cases hA : j % 4 < 2
      · have e1 : j < 32 ∧ j % 4 < 2 := by omega
        have e2 : ¬ ((2 + j) % 4 < 2) := by omega
        have e3 : 4 * (j / 4) + 2 * (j % 4) = 8 * (j / 8) + 2 * (j % 8) := by omega
        simp [hj, e1, e2, e3]
      · have e1 : ¬ (j % 4 < 2) := by omega
        have e2 : (2 + j) < 32 ∧ (2 + j) % 4 < 2 := by omega
        have e3 : 4 * ((2 + j) / 4) + 2 * ((2 + j) % 4) = 8 * (j / 8) + 2 * (j % 8) := by omega
        simp [hj, e1, e2, e3]
    · rcases (show ¬ (j < 32) ∨ ¬ (j % 8 < 4) by omega) with hc | hc
      · simp [hc]
      · simp [hc]
  have hr3 : ∀ j, ((r2 ||| (r2 >>> 4)) &&& 0x00ff00ff).testBit j
      = (decide (j < 32 ∧ j % 16 < 8) && m.testBit (16 * (j / 16) + 2 * (j % 16))) := by
    intro j
    simp only [Nat.testBit_and, Nat.testBit_lor, Nat.testBit_shiftRight, tb_ff00ff]
    by_cases hj : j < 32 ∧ j % 16 < 8
    · rw [hr2 j, hr2 (4 + j)]
      by_cases hA : j % 8 < 4
      · have e1 : j < 32 ∧ j % 8 < 4 := by omega
        have e2 : ¬ ((4 + j) % 8 < 4) := by omega
        have e3 : 8 * (j / 8) + 2 * (j % 8) = 16 * (j / 16) + 2 * (j % 16) := by omega
        simp [hj, e1, e2, e3]
      · have e1 : ¬ (j % 8 < 4) := by omega
        have e2 : (4 + j) < 32 ∧ (4 + j) % 8 < 4 := by omega
        have e3 : 8 * ((4 + j) / 8) + 2 * ((4 + j) % 8) = 16 * (j / 16) + 2 * (j % 16) := by omega
        simp [hj, e1, e2, e3]
    · rcases (show ¬ (j < 32) ∨ ¬ (j % 16 < 8) by omega) with hc | hc
      · simp [hc]
      · simp [hc]
  have hfin : reconstruct m = (r3 ||| (r3 >>> 8)) &&& 0x0000ffff := by
    simp only [reconstruct, hr0def, hm1, hm2, hm3]
  rw [hfin]
  simp only [Nat.testBit_and, Nat.testBit_lor, Nat.testBit_shiftRight, tb_ffff]
  by_cases hj : j < 16
  · rw [hr3 j, hr3 (8 + j)]
    by_cases hA : j % 16 < 8
    · have e1 : j < 32 ∧ j % 16 < 8 := by omega
      have e2 : ¬ ((8 + j) % 16 < 8) := by omega
      have e3 : 16 * (j / 16) + 2 * (j % 16) = 2 * j := by omega
      simp [hj, e1, e2, e3]
    · have e1 : ¬ (j % 16 < 8) := by omega
      have e2 : (8 + j) < 32 ∧ (8 + j) % 16 < 8 := by omega
      have e3 : 16 * ((8 + j) / 16) + 2 * ((8 + j) % 16) = 2 * j := by omega
      simp [hj, e1, e2, e3]
  · simp [hj]

theorem lor_div_two (a b : Nat) : (a ||| b) / 2 = (a / 2) ||| (b / 2) := by
  apply Nat.eq_of_testBit_eq
  intro i
  rw [← Nat.testBit_add_one, Nat.testBit_lor, Nat.testBit_lor, ← Nat.testBit_add_one,
    ← Nat.testBit_add_one]

theorem add_eq_lor {a b : Nat} (h : a &&& b = 0) : a + b = a ||| b := by
  induction a using Nat.strong_induction_on generalizing b with
  | _ a ih =>
    rcases Nat.eq_zero_or_pos a with ha | ha
    · simp [ha]
    · have hd : (a / 2) &&& (b / 2) = 0 := by
        apply Nat.eq_of_testBit_eq
        intro i
        have h2 := congrArg (fun t => t.testBit (i + 1)) h
        simp only [Nat.testBit_and, Nat.zero_testBit] at h2
        simp only [Nat.testBit_and, ← Nat.testBit_add_one, Nat.zero_testBit]
        exact h2
      have hb0 : ¬ (a % 2 = 1 ∧ b % 2 = 1) := by
        rintro ⟨h1, h2⟩
        have h3 := congrArg (fun t => t.testBit 0) h
        simp [Nat.testBit_and, Nat.testBit_zero, h1, h2] at h3
      have ihr : a / 2 + b / 2 = (a / 2) ||| (b / 2) := ih (a / 2) (by omega) hd
      have hm0 := Nat.testBit_lor a b 0
      simp only [Nat.testBit_zero] at hm0
      have hm : ((a ||| b) % 2 = 1) ↔ (a % 2 = 1 ∨ b % 2 = 1) := by
        constructor
        · intro hx
          have := hm0 ▸ (decide_eq_true (p := (a ||| b) % 2 = 1) hx)
          rcases Bool.or_eq_true_iff.mp this.symm.symm with hc | hc
          · exact Or.inl (of_decide_eq_true hc)
          · exact Or.inr (of_decide_eq_true hc)
        · intro hx
          have hr : (decide (a % 2 = 1) || decide (b % 2 = 1)) = true := by
            rcases hx with hc | hc
            · simp [hc]
            · simp [hc]
          exact of_decide_eq_true (hm0.symm ▸ hr)
      have hd2 : (a ||| b) / 2 = (a / 2) ||| (b / 2) := lor_div_two a b
      rw [← Nat.div_add_mod (a ||| b) 2, hd2, ← ihr]
      rcases Nat.mod_two_eq_zero_or_one a with h1 | h1 <;>
        rcases Nat.mod_two_eq_zero_or_one b with h2 | h2
      · have hz : ¬ ((a ||| b) % 2 = 1) := fun hx => by rcases hm.mp hx with hc | hc <;> omega
        omega
      · have hz : (a ||| b) % 2 = 1 := hm.mpr (Or.inr h2)
        omega
      · have hz : (a ||| b) % 2 = 1 := hm.mpr (Or.inl h1)
        omega
      · exact absurd ⟨h1, h2⟩ hb0

theorem partition_shift_disjoint (x y : Nat) (hx : x < 65536) (hy : y < 65536) :
    partition x &&& (partition y <<< 1) = 0 := by
  apply Nat.eq_of_testBit_eq
  intro i
  simp only [Nat.testBit_and, Nat.testBit_shiftLeft, Nat.zero_testBit,
    testBit_partition x hx, testBit_partition y hy]
  by_cases he : i % 2 = 0
  · rcases Nat.eq_zero_or_pos i with hi | hi
    · simp [hi]
    · have h1 : ¬ ((i - 1) % 2 = 0) := by omega
      simp [h1]
  · simp [he]

theorem testBit_morton2 (x y : Nat) (hx : x < 65536) (hy : y < 65536) (i : Nat) :
    (morton2 x y).testBit i =
      ((decide (i % 2 = 0) && x.testBit (i / 2)) ||
       (decide (1 ≤ i) && (decide ((i - 1) % 2 = 0) && y.testBit ((i - 1) / 2)))) := by
  have hadd : morton2 x y = partition x ||| (partition y <<< 1) := by
    rw [morton2, add_eq_lor (partition_shift_disjoint x y hx hy)]
  rw [hadd]
  simp only [Nat.testBit_lor, Nat.testBit_shiftLeft, testBit_partition x hx, testBit_partition y hy]

theorem reconstruct_morton2_fst (x y : Nat) (hx : x < 65536) (hy : y < 65536) :
    reconstruct (morton2 x y) = x := by
  apply Nat.eq_of_testBit_eq
  intro j
  rw [testBit_reconstruct]
  rw [testBit_morton2 x y hx hy]
  by_cases hj : j < 16
  · have hev : (2 * j) % 2 = 0 := by omega
    have he2 : (2 * j) / 2 = j := by omega
    rcases Nat.eq_zero_or_pos j with h0 | h0
    · simp [h0]
    · have hodd : ¬ ((2 * j - 1) % 2 = 0) := by omega
      simp [hj, hev, he2, hodd]
  · have hb : x.testBit j = false := bitHigh (show x < 2 ^ 16 by omega) j (by omega)
    simp [hj, hb]

theorem reconstruct_morton2_snd (x y : Nat) (hx : x < 65536) (hy : y < 65536) :
    reconstruct ((morton2 x y) >>> 1) = y := by
  apply Nat.eq_of_testBit_eq
  intro j
  rw [testBit_reconstruct]
  simp only [Nat.testBit_shiftRight]
  rw [testBit_morton2 x y hx hy]
  by_cases hj : j < 16
  · have h1 : ¬ ((1 + 2 * j) % 2 = 0) := by omega
    have h2 : (1 + 2 * j - 1) % 2 = 0 := by omega
    have h3 : (1 + 2 * j - 1) / 2 = j := by omega
    simp [hj, h1, h2, h3]
  · have hb : y.testBit j = false := bitHigh (show y < 2 ^ 16 by omega) j (by omega)
    simp [hj, hb]

theorem asPoint_new (x y : Nat) (hx : x < 65536) (hy : y < 65536) :
    asPoint (new x y) = (x, y) := by
  rw [new, Nat.mod_eq_of_lt hx, Nat.mod_eq_of_lt hy, asPoint,
    reconstruct_morton2_fst x y hx hy, reconstruct_morton2_snd x y hx hy]

end MortonKey

theorem isqrtIter_eq (n : Nat) : ∀ fuel guess, guess ≤ fuel → isqrtIter fuel n guess = Nat.sqrt.iter n guess := by
  intro fuel
  induction fuel with
  | zero =>
    intro guess h
    have hg : guess = 0 := by omega
    subst hg
    rw [Nat.sqrt.iter]
    simp [isqrtIter]
  | succ f ih =>
    intro guess h
    rw [Nat.sqrt.iter]
    show (if (guess + n / guess) / 2 < guess then isqrtIter f n ((guess + n / guess) / 2) else guess) = _
    by_cases hlt : (guess + n / guess) / 2 < guess
    · rw [if_pos hlt, dif_pos hlt]
      exact ih _ (by omega)
    · rw [if_neg hlt, dif_neg hlt]

theorem isqrt_eq_sqrt (n : Nat) : isqrt n = Nat.sqrt n := by
  rw [isqrt, Nat.sqrt]
  by_cases h : n ≤ 1
  · simp [h]
  · simp only [h, if_false]
    exact isqrtIter_eq n n (n / 2) (by omega)

theorem c10_test : Quadtree.msbDeBruijn 0 = 0 ∧
    (∀ v : Nat, Quadtree.deBruijnIndex v < Quadtree.DE_BRUIJN_BIT_POS.length) := by
  constructor
  · decide
  · intro v
    show ((v * 0x07c4acdd) % 4294967296) >>> 27 < 32
    rw [Nat.shiftRight_eq_div_pow]
    have h : (v * 0x07c4acdd) % 4294967296 < 4294967296 := Nat.mod_lt _ (by norm_num)
    omega

theorem c3_counter_test :
    (2 : Nat) < 4 ∧ MortonKey.asPoint 2 = (0, 1) ∧ MortonKey.asPoint 4 = (2, 0) ∧
    (Quadtree.litmaxBigmin 2 (0, 1) 4 (2, 0)).1 = 1 ∧
    (Quadtree.litmaxBigmin 2 (0, 1) 4 (2, 0)).2 = 6 ∧
    ¬ (2 ≤ (Quadtree.litmaxBigmin 2 (0, 1) 4 (2, 0)).1) ∧
    ((Quadtree.litmaxBigmin 2 (0, 1) 4 (2, 0)).1 < 2 ∧ 2 < (Quadtree.litmaxBigmin 2 (0, 1) 4 (2, 0)).2 ∧
      Quadtree.inSpannedBox (MortonKey.asPoint 2) (0, 1) (2, 0)) := by
  decide

/-- C2 (code_bug evidence): after extending the empty table with seven in-range
pairs having distinct Morton keys, the stored point (2,0) is not findable:
contains_key returns false and get_by_id returns none, because rebuild_skip_list
with step = len / 7 leaves the two highest skip samples at zero and the
partition count then points the bounded search at the wrong window. -/
theorem c2_extend_lookup_miss :
    (((2:Nat), (0:Nat)), (0:Nat)) ∈ ([(((2:Nat),(0:Nat)),(0:Nat)), (((3:Nat),(0:Nat)),(1:Nat)), (((2:Nat),(1:Nat)),(2:Nat)), (((3:Nat),(1:Nat)),(3:Nat)), (((1:Nat),(2:Nat)),(4:Nat)), (((2:Nat),(2:Nat)),(5:Nat)), (((3:Nat),(2:Nat)),(6:Nat))] : List (Point × Value)) ∧
    (MortonTable.fromIterator [(((2:Nat),(0:Nat)),(0:Nat)), (((3:Nat),(0:Nat)),(1:Nat)), (((2:Nat),(1:Nat)),(2:Nat)), (((3:Nat),(1:Nat)),(3:Nat)), (((1:Nat),(2:Nat)),(4:Nat)), (((2:Nat),(2:Nat)),(5:Nat)), (((3:Nat),(2:Nat)),(6:Nat))]).positions =
      [(2,0), (3,0), (2,1), (3,1), (1,2), (2,2), (3,2)] ∧
    (MortonTable.fromIterator [(((2:Nat),(0:Nat)),(0:Nat)), (((3:Nat),(0:Nat)),(1:Nat)), (((2:Nat),(1:Nat)),(2:Nat)), (((3:Nat),(1:Nat)),(3:Nat)), (((1:Nat),(2:Nat)),(4:Nat)), (((2:Nat),(2:Nat)),(5:Nat)), (((3:Nat),(2:Nat)),(6:Nat))]).containsKey (2, 0) = false ∧
    (MortonTable.fromIterator [(((2:Nat),(0:Nat)),(0:Nat)), (((3:Nat),(0:Nat)),(1:Nat)), (((2:Nat),(1:Nat)),(2:Nat)), (((3:Nat),(1:Nat)),(3:Nat)), (((1:Nat),(2:Nat)),(4:Nat)), (((2:Nat),(2:Nat)),(5:Nat)), (((3:Nat),(2:Nat)),(6:Nat))]).getById (2, 0) = none := by
  decide

/-- C1 (code_bug evidence): on the same seven-entry table, find_in_range with
center (2,0) and radius 1 returns nothing although the stored point (2,0) is at
distance 0 < 1: the corrupted skip index shifts the scan bracket past index 0. -/
theorem c1_find_in_range_miss :
    (MortonTable.fromIterator [(((2:Nat),(0:Nat)),(0:Nat)), (((3:Nat),(0:Nat)),(1:Nat)), (((2:Nat),(1:Nat)),(2:Nat)), (((3:Nat),(1:Nat)),(3:Nat)), (((1:Nat),(2:Nat)),(4:Nat)), (((2:Nat),(2:Nat)),(5:Nat)), (((3:Nat),(2:Nat)),(6:Nat))]).positions.getD 0 (0,0) = (2, 0) ∧
    Point.dist (2, 0) (2, 0) < 1 ∧
    (MortonTable.fromIterator [(((2:Nat),(0:Nat)),(0:Nat)), (((3:Nat),(0:Nat)),(1:Nat)), (((2:Nat),(1:Nat)),(2:Nat)), (((3:Nat),(1:Nat)),(3:Nat)), (((1:Nat),(2:Nat)),(4:Nat)), (((2:Nat),(2:Nat)),(5:Nat)), (((3:Nat),(2:Nat)),(6:Nat))]).findInRange (2, 0) 1 [] = [] := by
  decide

/-- C5 (code_bug evidence): delete removes the matching entry from the three
arrays and returns its value, but never rebuilds the skip index: after deleting
the only entry the skip sample still holds the old key 1 instead of zero.
Moreover delete relies on the broken lookup: deleting the stored point (2,0)
from the seven-entry table returns none and changes nothing. -/
theorem c5_delete_no_rebuild :
    (((MortonTable.new.insert (1, 0) 0).1.delete (1, 0)).2 = some 0) ∧
    (((MortonTable.new.insert (1, 0) 0).1.delete (1, 0)).1.keys = []) ∧
    (((MortonTable.new.insert (1, 0) 0).1.delete (1, 0)).1.values = []) ∧
    (((MortonTable.new.insert (1, 0) 0).1.delete (1, 0)).1.skiplist = [1,0,0,0,0,0,0,0]) ∧
    ¬ (((MortonTable.new.insert (1, 0) 0).1.delete (1, 0)).1.skiplist = List.replicate 8 0) ∧
    ((MortonTable.fromIterator [(((2:Nat),(0:Nat)),(0:Nat)), (((3:Nat),(0:Nat)),(1:Nat)), (((2:Nat),(1:Nat)),(2:Nat)), (((3:Nat),(1:Nat)),(3:Nat)), (((1:Nat),(2:Nat)),(4:Nat)), (((2:Nat),(2:Nat)),(5:Nat)), (((3:Nat),(2:Nat)),(6:Nat))]).delete (2, 0)
      = (MortonTable.fromIterator [(((2:Nat),(0:Nat)),(0:Nat)), (((3:Nat),(0:Nat)),(1:Nat)), (((2:Nat),(1:Nat)),(2:Nat)), (((3:Nat),(1:Nat)),(3:Nat)), (((1:Nat),(2:Nat)),(4:Nat)), (((2:Nat),(2:Nat)),(5:Nat)), (((3:Nat),(2:Nat)),(6:Nat))], none)) := by
  decide

/-- C8 (code_bug evidence): the radius precondition in find_in_range is
radius & 0xefff == radius, not the 15-bit check of the specification: radius
4096 fits in 15 bits yet fails the check, and radius 0xe000 exceeds 15 bits yet
passes it. -/
theorem c8_radius_mask_wrong :
    MortonTable.radiusCheck 4096 = false ∧ (4096 : Nat) &&& 0x7fff = 4096 ∧
    MortonTable.radiusCheck 0xe000 = true ∧ ¬ ((0xe000 : Nat) &&& 0x7fff = 0xe000) := by
  decide

/-- C4 counterexample: after extending the empty table with 14 pairs the stored
skip step is 2 = 14 / 7, not 14 / 8 = 1 as the claim states. -/
theorem c4_counter_step :
    (MortonTable.fromIterator [(((0:Nat),(0:Nat)),(0:Nat)), (((0:Nat),(1:Nat)),(1:Nat)), (((0:Nat),(2:Nat)),(2:Nat)), (((0:Nat),(3:Nat)),(3:Nat)), (((1:Nat),(0:Nat)),(4:Nat)), (((1:Nat),(1:Nat)),(5:Nat)), (((1:Nat),(2:Nat)),(6:Nat)), (((1:Nat),(3:Nat)),(7:Nat)), (((2:Nat),(0:Nat)),(8:Nat)), (((2:Nat),(1:Nat)),(9:Nat)), (((2:Nat),(2:Nat)),(10:Nat)), (((2:Nat),(3:Nat)),(11:Nat)), (((3:Nat),(0:Nat)),(12:Nat)), (((3:Nat),(1:Nat)),(13:Nat))]).keys.length = 14 ∧
    (MortonTable.fromIterator [(((0:Nat),(0:Nat)),(0:Nat)), (((0:Nat),(1:Nat)),(1:Nat)), (((0:Nat),(2:Nat)),(2:Nat)), (((0:Nat),(3:Nat)),(3:Nat)), (((1:Nat),(0:Nat)),(4:Nat)), (((1:Nat),(1:Nat)),(5:Nat)), (((1:Nat),(2:Nat)),(6:Nat)), (((1:Nat),(3:Nat)),(7:Nat)), (((2:Nat),(0:Nat)),(8:Nat)), (((2:Nat),(1:Nat)),(9:Nat)), (((2:Nat),(2:Nat)),(10:Nat)), (((2:Nat),(3:Nat)),(11:Nat)), (((3:Nat),(0:Nat)),(12:Nat)), (((3:Nat),(1:Nat)),(13:Nat))]).skipstep = 2 ∧
    ¬ ((MortonTable.fromIterator [(((0:Nat),(0:Nat)),(0:Nat)), (((0:Nat),(1:Nat)),(1:Nat)), (((0:Nat),(2:Nat)),(2:Nat)), (((0:Nat),(3:Nat)),(3:Nat)), (((1:Nat),(0:Nat)),(4:Nat)), (((1:Nat),(1:Nat)),(5:Nat)), (((1:Nat),(2:Nat)),(6:Nat)), (((1:Nat),(3:Nat)),(7:Nat)), (((2:Nat),(0:Nat)),(8:Nat)), (((2:Nat),(1:Nat)),(9:Nat)), (((2:Nat),(2:Nat)),(10:Nat)), (((2:Nat),(3:Nat)),(11:Nat)), (((3:Nat),(0:Nat)),(12:Nat)), (((3:Nat),(1:Nat)),(13:Nat))]).skipstep
        = (MortonTable.fromIterator [(((0:Nat),(0:Nat)),(0:Nat)), (((0:Nat),(1:Nat)),(1:Nat)), (((0:Nat),(2:Nat)),(2:Nat)), (((0:Nat),(3:Nat)),(3:Nat)), (((1:Nat),(0:Nat)),(4:Nat)), (((1:Nat),(1:Nat)),(5:Nat)), (((1:Nat),(2:Nat)),(6:Nat)), (((1:Nat),(3:Nat)),(7:Nat)), (((2:Nat),(0:Nat)),(8:Nat)), (((2:Nat),(1:Nat)),(9:Nat)), (((2:Nat),(2:Nat)),(10:Nat)), (((2:Nat),(3:Nat)),(11:Nat)), (((3:Nat),(0:Nat)),(12:Nat)), (((3:Nat),(1:Nat)),(13:Nat))]).keys.length / 8) := by
  decide

/-- C6 counterexample: loading the single pair ((1,0), 7) into both structures,
the query with center (0,0) and radius 1 returns the empty set from the Z-table
(strict comparison dist < r) but the stored entry from the quadtree (comparison
dist <= r); the point lies at distance exactly 1. -/
theorem c6_counter_boundary :
    (MortonTable.fromIterator [(((1:Nat),(0:Nat)), (7:Nat))]).findInRange (0, 0) 1 [] = [] ∧
    (QTree.extend QTree.dflt [(((1:Nat),(0:Nat)), (7:Nat))]).findInRange (0, 0) 1 []
      = [((1, 0), 7)] ∧
    Point.dist (1, 0) (0, 0) = 1 := by
  decide

theorem list_set_self {α : Type} (l : List α) (i : Nat) (h : i < l.length) :
    l.set i l[i] = l := by
  rw [List.set_eq_take_cons_drop _ h, ← List.drop_eq_getElem_cons h, List.take_append_drop]

theorem cons_swap_perm {α : Type} (a b : α) (M S : List α) :
    (b :: (M ++ a :: S)).Perm (a :: (M ++ b :: S)) :=
  List.Perm.trans (List.Perm.cons b List.perm_middle)
    (List.Perm.trans (List.Perm.swap a b (M ++ S))
      (List.Perm.cons a List.perm_middle.symm))

theorem listSwap_perm_core {α : Type} (l : List α) (i j : Nat) (a b : α) (hij : i < j)
    (hi : l[i]? = some a) (hj : l[j]? = some b) : ((l.set i b).set j a).Perm l := by
  have hjl : j < l.length := by
    by_contra hc
    rw [List.getElem?_eq_none (by omega)] at hj
    exact Option.noConfusion hj
  have hil : i < l.length := by omega
  have ha : l[i] = a := by
    rw [List.getElem?_eq_getElem hil] at hi
    exact Option.some.inj hi
  have hb : l[j] = b := by
    rw [List.getElem?_eq_getElem hjl] at hj
    exact Option.some.inj hj
  set M := (l.drop (i + 1)).take (j - i - 1) with hM
  have hstep1 : l.set i b = l.take i ++ b :: l.drop (i + 1) :=
    List.set_eq_take_cons_drop b hil
  have htklen : (l.take i).length = i := by
    simp
    omega
  have hstep2 : (l.set i b).set j a = l.take i ++ b :: ((l.drop (i + 1)).set (j - i - 1) a) := by
    rw [hstep1, List.set_append, htklen]
    have hni : ¬ (j < i) := by omega
    simp only [hni, if_false]
    have he : j - i = (j - i - 1) + 1 := by omega
    rw [he, List.set_cons_succ]
    have he2 : j - i - 1 + 1 - 1 = j - i - 1 := by omega
    rw [he2]
  have hinner : (l.drop (i + 1)).set (j - i - 1) a = M ++ a :: l.drop (j + 1) := by
    have hlt : j - i - 1 < (l.drop (i + 1)).length := by
      simp
      omega
    rw [List.set_eq_take_cons_drop a hlt, ← hM]
    have hd : (l.drop (i + 1)).drop (j - i - 1 + 1) = l.drop (j + 1) := by
      rw [List.drop_drop]
      congr 1
      omega
    rw [hd]
  have hldec : l = l.take i ++ a :: (M ++ b :: l.drop (j + 1)) := by
    conv_lhs => rw [← List.take_append_drop i l]
    congr 1
    rw [List.drop_eq_getElem_cons hil, ha]
    congr 1
    have h2 : l.drop (i + 1) = M ++ (l.drop (i + 1)).drop (j - i - 1) := by
      rw [hM, List.take_append_drop]
    rw [h2]
    congr 1
    have hd : (l.drop (i + 1)).drop (j - i - 1) = l.drop j := by
      rw [List.drop_drop]
      congr 1
      omega
    rw [hd, List.drop_eq_getElem_cons hjl, hb]
  rw [hstep2, hinner]
  conv_rhs => rw [hldec]
  exact List.Perm.append_left _ (cons_swap_perm a b M (l.drop (j + 1)))

theorem listSwap_perm {α : Type} (l : List α) (i j : Nat) : (listSwap l i j).Perm l := by
  unfold listSwap
  cases hi : l[i]? with
  | none => exact List.Perm.refl l
  | some a =>
    cases hj : l[j]? with
    | none => exact List.Perm.refl l
    | some b =>
      rcases lt_trichotomy i j with h | h | h
      · exact listSwap_perm_core l i j a b h hi hj
      · subst h
        have hab : a = b := by
          rw [hi] at hj
          exact Option.some.inj hj
        subst hab
        have hil : i < l.length := by
          by_contra hc
          rw [List.getElem?_eq_none (by omega)] at hi
          exact Option.noConfusion hi
        have ha : l[i] = a := by
          rw [List.getElem?_eq_getElem hil] at hi
          exact Option.some.inj hi
        show ((l.set i a).set i a).Perm l
        rw [List.set_set, ← ha, list_set_self l i hil]
      · show ((l.set i b).set j a).Perm l
        rw [List.set_comm _ _ _ (by omega)]
        exact listSwap_perm_core l j i b a h hj hi

theorem lomutoRot_perm (h : List Row) : (lomutoRot h).Perm h := by
  cases h with
  | nil => exact List.Perm.refl []
  | cons x t => exact List.perm_append_singleton x t

theorem lomutoLoop_go (pivot : Nat) (l : List Row) : ∀ (lows highs : List Row),
    (∀ x ∈ lows, x.1 < pivot) → (∀ x ∈ highs, ¬ x.1 < pivot) →
    (((l.foldl (fun (st : List Row × List Row) x =>
        if x.1 < pivot then (st.1 ++ [x], lomutoRot st.2) else (st.1, st.2 ++ [x])) (lows, highs)).1
      ++ (l.foldl (fun (st : List Row × List Row) x =>
        if x.1 < pivot then (st.1 ++ [x], lomutoRot st.2) else (st.1, st.2 ++ [x])) (lows, highs)).2).Perm
        (lows ++ highs ++ l))
    ∧ (∀ x ∈ (l.foldl (fun (st : List Row × List Row) x =>
        if x.1 < pivot then (st.1 ++ [x], lomutoRot st.2) else (st.1, st.2 ++ [x])) (lows, highs)).1, x.1 < pivot)
    ∧ (∀ x ∈ (l.foldl (fun (st : List Row × List Row) x =>
        if x.1 < pivot then (st.1 ++ [x], lomutoRot st.2) else (st.1, st.2 ++ [x])) (lows, highs)).2, ¬ x.1 < pivot) := by
  induction l with
  | nil =>
    intro lows highs h1 h2
    refine ⟨?_, h1, h2⟩
    simp
  | cons x rest ih =>
    intro lows highs h1 h2
    simp only [List.foldl_cons]
    by_cases hx : x.1 < pivot
    · rw [if_pos hx]
      have h1' : ∀ y ∈ lows ++ [x], y.1 < pivot := by
        intro y hy
        rcases List.mem_append.mp hy with hy | hy
        · exact h1 y hy
        · rw [List.mem_singleton.mp hy]
          exact hx
      have h2' : ∀ y ∈ lomutoRot highs, ¬ y.1 < pivot := by
        intro y hy
        exact h2 y ((lomutoRot_perm highs).mem_iff.mp hy)
      obtain ⟨hp, hl, hh⟩ := ih (lows ++ [x]) (lomutoRot highs) h1' h2'
      refine ⟨?_, hl, hh⟩
      refine hp.trans ?_
      have hmid : ((lows ++ [x]) ++ lomutoRot highs ++ rest).Perm
          ((lows ++ [x]) ++ highs ++ rest) :=
        List.Perm.append_right rest (List.Perm.append_left _ (lomutoRot_perm highs))
      refine hmid.trans ?_
      have e1 : (lows ++ [x]) ++ highs ++ rest = lows ++ (x :: (highs ++ rest)) := by
        simp
      have e2 : lows ++ highs ++ (x :: rest) = lows ++ (highs ++ x :: rest) := by
        simp
      rw [e1, e2]
      exact List.Perm.append_left lows List.perm_middle.symm
    · rw [if_neg hx]
      have h2' : ∀ y ∈ highs ++ [x], ¬ y.1 < pivot := by
        intro y hy
        rcases List.mem_append.mp hy with hy | hy
        · exact h2 y hy
        · rw [List.mem_singleton.mp hy]
          exact hx
      obtain ⟨hp, hl, hh⟩ := ih lows (highs ++ [x]) h1 h2'
      refine ⟨?_, hl, hh⟩
      refine hp.trans ?_
      have e1 : lows ++ (highs ++ [x]) ++ rest = lows ++ highs ++ (x :: rest) := by
        simp
      rw [e1]

theorem lomutoLoop_spec (pivot : Nat) (l : List Row) :
    ((lomutoLoop pivot l).1 ++ (lomutoLoop pivot l).2).Perm l
    ∧ (∀ x ∈ (lomutoLoop pivot l).1, x.1 < pivot)
    ∧ (∀ x ∈ (lomutoLoop pivot l).2, ¬ x.1 < pivot) := by
  have := lomutoLoop_go pivot l [] [] (by intro x hx; cases hx) (by intro x hx; cases hx)
  simpa [lomutoLoop] using this

theorem pivotIndex_lt (l : List Row) (hl : 1 ≤ l.length) : pivotIndex l < l.length := by
  unfold pivotIndex
  dsimp only
  split_ifs <;> omega

theorem listSwap_eq_row (l : List Row) (i j : Nat) (hi : i < l.length)
    (hj : j < l.length) :
    listSwap l i j = (l.set i (l.getD j dfltRow)).set j (l.getD i dfltRow) := by
  unfold listSwap
  rw [List.getElem?_eq_getElem hi, List.getElem?_eq_getElem hj]
  rw [List.getD_eq_getElem _ _ hj, List.getD_eq_getElem _ _ hi]

theorem sortPartition_spec (l : List Row) (hl : 1 ≤ l.length) :
    ((sortPartition l).1 ++ (sortPartition l).2.1 :: (sortPartition l).2.2).Perm l ∧
    (∀ x ∈ (sortPartition l).1, x.1 < (sortPartition l).2.1.1) ∧
    (∀ x ∈ (sortPartition l).2.2, (sortPartition l).2.1.1 ≤ x.1) := by
  have hpi := pivotIndex_lt l hl
  have hliml : l.length - 1 < l.length := by omega
  have hdef : sortPartition l =
      ((lomutoLoop (l.getD (pivotIndex l) dfltRow).1
          ((listSwap l (pivotIndex l) (l.length - 1)).take (l.length - 1))).1,
        l.getD (pivotIndex l) dfltRow,
        lomutoRot (lomutoLoop (l.getD (pivotIndex l) dfltRow).1
          ((listSwap l (pivotIndex l) (l.length - 1)).take (l.length - 1))).2) := rfl
  set piv := l.getD (pivotIndex l) dfltRow with hpiv
  set l2 := listSwap l (pivotIndex l) (l.length - 1) with hl2
  set st := lomutoLoop piv.1 (l2.take (l.length - 1)) with hst
  have hperm2 : l2.Perm l := listSwap_perm l (pivotIndex l) (l.length - 1)
  have hlen2 : l2.length = l.length := hperm2.length_eq
  have hlast : l2.getD (l.length - 1) dfltRow = piv := by
    rw [hl2, listSwap_eq_row l _ _ hpi hliml]
    rw [List.getD_eq_getElem _ _ (by simp [List.length_set]; omega)]
    rw [List.getElem_set_self]
  have htake : l2 = l2.take (l.length - 1) ++ [piv] := by
    conv_lhs => rw [← List.take_append_drop (l.length - 1) l2]
    congr 1
    rw [List.drop_eq_getElem_cons (by omega)]
    rw [List.drop_eq_nil_of_le (by omega)]
    rw [← List.getD_eq_getElem l2 dfltRow (by omega), hlast]
  obtain ⟨hp, hlo, hhi⟩ := lomutoLoop_spec piv.1 (l2.take (l.length - 1))
  rw [hdef]
  refine ⟨?_, ?_, ?_⟩
  · show (st.1 ++ piv :: lomutoRot st.2).Perm l
    have s1 : (st.1 ++ piv :: lomutoRot st.2).Perm (st.1 ++ piv :: st.2) :=
      List.Perm.append_left _ (List.Perm.cons piv (lomutoRot_perm st.2))
    have s2 : (st.1 ++ piv :: st.2).Perm (piv :: (st.1 ++ st.2)) := List.perm_middle
    have s3 : (piv :: (st.1 ++ st.2)).Perm (piv :: l2.take (l.length - 1)) :=
      List.Perm.cons piv hp
    have s4 : (piv :: l2.take (l.length - 1)).Perm (l2.take (l.length - 1) ++ [piv]) :=
      (List.perm_append_singleton piv _).symm
    have s5 : (l2.take (l.length - 1) ++ [piv]).Perm l := by
      rw [← htake]
      exact hperm2
    exact (((s1.trans s2).trans s3).trans s4).trans s5
  · intro x hx
    exact hlo x hx
  · intro x hx
    have hmem : x ∈ st.2 := (lomutoRot_perm st.2).mem_iff.mp hx
    exact Nat.le_of_not_lt (hhi x hmem)

theorem qsortAux_spec : ∀ (fuel : Nat) (l : List Row), l.length ≤ fuel →
    (qsortAux fuel l).Perm l ∧ (qsortAux fuel l).Sorted rowLe := by
  intro fuel
  induction fuel with
  | zero =>
    intro l hl
    have hnil : l = [] := List.eq_nil_of_length_eq_zero (by omega)
    subst hnil
    exact ⟨List.Perm.refl _, List.sorted_nil⟩
  | succ f ih =>
    intro l hl
    by_cases hs : l.length < 2
    · have he : qsortAux (f + 1) l = l := by
        simp only [qsortAux]
        rw [if_pos hs]
      rw [he]
      refine ⟨List.Perm.refl _, ?_⟩
      match l, hs with
      | [], _ => exact List.sorted_nil
      | [x], _ => exact List.sorted_singleton x
    · have h1 : 1 ≤ l.length := by omega
      obtain ⟨hp, hlo, hhi⟩ := sortPartition_spec l h1
      have hlen : (sortPartition l).1.length + ((sortPartition l).2.1 :: (sortPartition l).2.2).length
          = l.length := by
        have := hp.length_eq
        simpa using this
      have hl1 : (sortPartition l).1.length ≤ f := by
        simp only [List.length_cons] at hlen
        omega
      have hl2 : (sortPartition l).2.2.length ≤ f := by
        simp only [List.length_cons] at hlen
        omega
      obtain ⟨q1p, q1s⟩ := ih (sortPartition l).1 hl1
      obtain ⟨q2p, q2s⟩ := ih (sortPartition l).2.2 hl2
      have hunf : qsortAux (f + 1) l
          = qsortAux f (sortPartition l).1 ++ (sortPartition l).2.1 :: qsortAux f (sortPartition l).2.2 := by
        simp only [qsortAux]
        rw [if_neg hs]
      rw [hunf]
      constructor
      · exact (q1p.append (List.Perm.cons _ q2p)).trans hp
      · rw [List.Sorted, List.pairwise_append]
        refine ⟨q1s, ?_, ?_⟩
        · rw [List.pairwise_cons]
          refine ⟨?_, q2s⟩
          intro b hb
          exact hhi b (q2p.mem_iff.mp hb)
        · intro x hx y hy
          have hxl : x.1 < (sortPartition l).2.1.1 := hlo x (q1p.mem_iff.mp hx)
          rcases List.mem_cons.mp hy with hy | hy
          · rw [hy]
            exact Nat.le_of_lt hxl
          · have := hhi y (q2p.mem_iff.mp hy)
            show x.1 ≤ y.1
            omega

theorem sortRows_spec (l : List Row) :
    (sortRows l).Perm l ∧ (sortRows l).Sorted rowLe :=
  qsortAux_spec l.length l (Nat.le_refl _)

theorem sorted_getD_mono (ks : List Nat) (hs : ks.Sorted (fun a b => a ≤ b))
    (i j : Nat) (hij : i ≤ j) (hj : j < ks.length) : ks.getD i 0 ≤ ks.getD j 0 := by
  rcases Nat.eq_or_lt_of_le hij with he | hlt
  · rw [he]
  · rw [List.getD_eq_getElem _ _ (by omega), List.getD_eq_getElem _ _ hj]
    exact List.pairwise_iff_getElem.mp hs i j (by omega) hj hlt

/-- Loop invariant correctness for the Rust binary search. -/
theorem bsLoop_spec (ks : List Nat) (key : Nat) (hs : ks.Sorted (fun a b => a ≤ b)) :
    ∀ (fuel left right : Nat), right ≤ ks.length → left ≤ right → right - left < fuel →
    (∀ j, j < left → ks.getD j 0 < key) →
    (∀ j, right ≤ j → j < ks.length → key < ks.getD j 0) →
    (match binarySearchLoop fuel ks key left right with
     | .ok i => i < ks.length ∧ ks.getD i 0 = key
     | .error i => i ≤ ks.length ∧ (∀ j, j < i → ks.getD j 0 < key)
         ∧ (∀ j, i ≤ j → j < ks.length → key < ks.getD j 0)) := by
  intro fuel
  induction fuel with
  | zero =>
    intro left right _ _ hspan _ _
    omega
  | succ f ih =>
    intro left right hr hlr hspan hlow hhigh
    show (match binarySearchLoop (f + 1) ks key left right with
     | .ok i => i < ks.length ∧ ks.getD i 0 = key
     | .error i => i ≤ ks.length ∧ (∀ j, j < i → ks.getD j 0 < key)
         ∧ (∀ j, i ≤ j → j < ks.length → key < ks.getD j 0))
    rw [binarySearchLoop]
    by_cases hlt : left < right
    · rw [if_pos hlt]
      set mid := left + (right - left) / 2 with hmid
      have hmlt : mid < right := by omega
      have hmge : left ≤ mid := by omega
      by_cases h1 : ks.getD mid 0 < key
      · rw [if_pos h1]
        have hlow2 : ∀ j, j < mid + 1 → ks.getD j 0 < key := by
          intro j hj
          calc ks.getD j 0 ≤ ks.getD mid 0 := sorted_getD_mono ks hs j mid (by omega) (by omega)
            _ < key := h1
        exact ih (mid + 1) right hr (by omega) (by omega) hlow2 hhigh
      · rw [if_neg h1]
        by_cases h2 : key < ks.getD mid 0
        · rw [if_pos h2]
          have hhigh2 : ∀ j, mid ≤ j → j < ks.length → key < ks.getD j 0 := by
            intro j hj hjl
            calc key < ks.getD mid 0 := h2
              _ ≤ ks.getD j 0 := sorted_getD_mono ks hs mid j hj hjl
          exact ih left mid (by omega) (by omega) (by omega) hlow hhigh2
        · rw [if_neg h2]
          exact ⟨by omega, by omega⟩
    · rw [if_neg hlt]
      have he : left = right := by omega
      exact ⟨by omega, hlow, by rw [he] at hlow ⊢; exact hhigh⟩

theorem binarySearch_spec (ks : List Nat) (key : Nat) (hs : ks.Sorted (fun a b => a ≤ b)) :
    (match binarySearch ks key with
     | .ok i => i < ks.length ∧ ks.getD i 0 = key
     | .error i => i ≤ ks.length ∧ (∀ j, j < i → ks.getD j 0 < key)
         ∧ (∀ j, i ≤ j → j < ks.length → key < ks.getD j 0)) := by
  have := bsLoop_spec ks key hs (ks.length + 1) 0 ks.length (Nat.le_refl _) (by omega) (by omega)
    (by intro j hj; omega) (by intro j hj hjl; omega)
  exact this

/-- On a sorted key list a present key is found and an absent key yields the
insertion position. -/
theorem binarySearch_mem (ks : List Nat) (key : Nat) (hs : ks.Sorted (fun a b => a ≤ b)) :
    (∀ i, binarySearch ks key = .ok i → i < ks.length ∧ ks.getD i 0 = key) ∧
    (∀ i, binarySearch ks key = .error i → ¬ (key ∈ ks)) := by
  have h := binarySearch_spec ks key hs
  constructor
  · intro i hi
    rw [hi] at h
    exact h
  · intro i hi hmem
    rw [hi] at h
    obtain ⟨hle, hlow, hhigh⟩ := h
    obtain ⟨j, hj, hje⟩ := List.mem_iff_getElem.mp hmem
    have hjd : ks.getD j 0 = key := by
      rw [List.getD_eq_getElem _ _ hj, hje]
    rcases Nat.lt_or_ge j i with hc | hc
    · have := hlow j hc
      omega
    · have := hhigh j hc hj
      omega

theorem insertIdx_eq_take_cons_drop {α : Type} (l : List α) (n : Nat) (a : α)
    (h : n ≤ l.length) : l.insertIdx n a = l.take n ++ a :: l.drop n := by
  induction n generalizing l with
  | zero => simp
  | succ n ih =>
    cases l with
    | nil => simp at h
    | cons hd tl =>
      rw [List.insertIdx_succ_cons]
      simp only [List.take_succ_cons, List.drop_succ_cons, List.cons_append]
      rw [ih tl (by simpa using h)]

theorem rebuild_components (t : MortonTable) :
    (t.rebuildSkipList).keys = t.keys ∧ (t.rebuildSkipList).positions = t.positions
      ∧ (t.rebuildSkipList).values = t.values := by
  unfold MortonTable.rebuildSkipList
  dsimp only
  split
  · split <;> exact ⟨rfl, rfl, rfl⟩
  · exact ⟨rfl, rfl, rfl⟩

theorem tableInv_rebuild (t : MortonTable) (h : tableInv t) : tableInv t.rebuildSkipList := by
  obtain ⟨h1, h2, h3⟩ := h
  obtain ⟨e1, e2, e3⟩ := rebuild_components t
  exact ⟨e1 ▸ h1, by rw [e1, e2]; exact h2, by rw [e1, e3]; exact h3⟩

theorem tableInv_new : tableInv MortonTable.new := by
  refine ⟨List.sorted_nil, rfl, rfl⟩

theorem tableInv_clear (t : MortonTable) : tableInv t.clear := by
  refine ⟨List.sorted_nil, rfl, rfl⟩

theorem tableInv_extend (t : MortonTable) (items : List (Point × Value)) :
    tableInv (t.extend items) := by
  unfold MortonTable.extend
  dsimp only
  apply tableInv_rebuild
  set rows := sortRows ((t.keys ++ items.map fun pv => MortonKey.new pv.1.1 pv.1.2).zip
    ((t.positions ++ items.map Prod.fst).zip (t.values ++ items.map Prod.snd))) with hrows
  obtain ⟨hperm, hsorted⟩ := sortRows_spec ((t.keys ++ items.map fun pv => MortonKey.new pv.1.1 pv.1.2).zip
    ((t.positions ++ items.map Prod.fst).zip (t.values ++ items.map Prod.snd)))
  refine ⟨?_, by simp, by simp⟩
  show (rows.map (fun r => r.1)).Sorted (fun a b => a ≤ b)
  exact List.Pairwise.map _ (fun a b hab => hab) hsorted

theorem tableInv_insert (t : MortonTable) (p : Point) (v : Value) (h : tableInv t) :
    tableInv (t.insert p v).1 := by
  obtain ⟨hsort, hlp, hlv⟩ := h
  unfold MortonTable.insert
  by_cases hint : t.intersects p
  · rw [if_neg (by simp [hint])]
    dsimp only
    apply tableInv_rebuild
    set key := MortonKey.newU32 p.1 p.2 with hkey
    have hbs := binarySearch_spec t.keys key hsort
    set ind := (match binarySearch t.keys key with
      | .ok i => i
      | .error i => i) with hind
    have hindle : ind ≤ t.keys.length ∧ (∀ j, j < ind → t.keys.getD j 0 ≤ key)
        ∧ (∀ j, ind ≤ j → j < t.keys.length → key ≤ t.keys.getD j 0) := by
      rcases hbse : binarySearch t.keys key with i | i
      · rw [hbse] at hbs hind
        dsimp only at hind
        obtain ⟨hle, hlow, hhigh⟩ := hbs
        refine ⟨by omega, ?_, ?_⟩
        · intro j hj
          have := hlow j (by omega)
          omega
        · intro j hj hjl
          have := hhigh j (by omega) hjl
          omega
      · rw [hbse] at hbs hind
        dsimp only at hind
        obtain ⟨hlt, heq⟩ := hbs
        refine ⟨by omega, ?_, ?_⟩
        · intro j hj
          calc t.keys.getD j 0 ≤ t.keys.getD ind 0 := sorted_getD_mono _ hsort j ind (by omega) (by omega)
            _ = key := by rw [← hind] at heq; exact heq
        · intro j hj hjl
          calc key = t.keys.getD ind 0 := by rw [← hind] at heq; exact heq.symm
            _ ≤ t.keys.getD j 0 := sorted_getD_mono _ hsort ind j hj hjl
    obtain ⟨hle, hlow, hhigh⟩ := hindle
    refine ⟨?_, ?_, ?_⟩
    · show (t.keys.insertIdx ind key).Sorted (fun a b => a ≤ b)
      rw [insertIdx_eq_take_cons_drop _ _ _ hle]
      rw [List.Sorted, List.pairwise_append]
      refine ⟨List.Pairwise.sublist (List.take_sublist _ _) hsort, ?_, ?_⟩
      · rw [List.pairwise_cons]
        refine ⟨?_, List.Pairwise.sublist (List.drop_sublist _ _) hsort⟩
        intro b hb
        obtain ⟨j, hj, hje⟩ := List.mem_iff_getElem.mp hb
        have hjlen : ind + j < t.keys.length := by
          have := List.length_drop ind t.keys
          omega
        have : t.keys.getD (ind + j) 0 = b := by
          rw [List.getD_eq_getElem _ _ hjlen, ← hje, List.getElem_drop]
        have hk := hhigh (ind + j) (by omega) hjlen
        omega
      · intro x hx y hy
        obtain ⟨j, hj, hje⟩ := List.mem_iff_getElem.mp hx
        have hjlen : j < t.keys.length := by
          have := List.length_take ind t.keys
          have := List.length_take_le ind t.keys
          omega
        have hjind : j < ind := by
          have := List.length_take ind t.keys
          omega
        have hxv : t.keys.getD j 0 = x := by
          rw [List.getD_eq_getElem _ _ hjlen, ← hje, List.getElem_take]
        have hxk : x ≤ key := by
          have := hlow j hjind
          omega
        rcases List.mem_cons.mp hy with hy | hy
        · omega
        · obtain ⟨j2, hj2, hj2e⟩ := List.mem_iff_getElem.mp hy
          have hj2len : ind + j2 < t.keys.length := by
            have := List.length_drop ind t.keys
            omega
          have hyv : t.keys.getD (ind + j2) 0 = y := by
            rw [List.getD_eq_getElem _ _ hj2len, ← hj2e, List.getElem_drop]
          have := hhigh (ind + j2) (by omega) hj2len
          omega
    · show (t.keys.insertIdx ind key).length = (t.positions.insertIdx ind p).length
      rw [List.length_insertIdx _ _ hle, List.length_insertIdx _ _ (by omega)]
      omega
    · show (t.keys.insertIdx ind key).length = (t.values.insertIdx ind v).length
      rw [List.length_insertIdx _ _ hle, List.length_insertIdx _ _ (by omega)]
      omega
  · rw [if_pos (by simp [hint])]
    exact ⟨hsort, hlp, hlv⟩

theorem tableInv_delete (t : MortonTable) (p : Point) (h : tableInv t) :
    tableInv (t.delete p).1 := by
  obtain ⟨hsort, hlp, hlv⟩ := h
  unfold MortonTable.delete
  by_cases hc : t.containsKey p
  · rw [if_neg (by simp [hc])]
    rcases hf : t.findKey p with i | i
    · exact ⟨hsort, hlp, hlv⟩
    · dsimp only
      refine ⟨?_, ?_, ?_⟩
      · exact List.Pairwise.sublist (List.eraseIdx_sublist _ _) hsort
      · show (t.keys.eraseIdx i).length = (t.positions.eraseIdx i).length
        rw [List.length_eraseIdx, List.length_eraseIdx, ← hlp]
      · show (t.keys.eraseIdx i).length = (t.values.eraseIdx i).length
        rw [List.length_eraseIdx, List.length_eraseIdx, ← hlv]
  · rw [if_pos (by simp [hc])]
    exact ⟨hsort, hlp, hlv⟩

/-- C9: after every sequence of public mutations the keys stay sorted and the three
columns stay aligned; the row quicksort sorts by key and permutes rows. -/
theorem c9_sorted_parallel_arrays :
    (∀ t : MortonTable, Reachable t → tableInv t) ∧
    (∀ rows : List Row, (sortRows rows).Perm rows ∧ (sortRows rows).Sorted rowLe) := by
  constructor
  · intro t h
    induction h with
    | new => exact tableInv_new
    | insert t p v _ ih => exact tableInv_insert t p v ih
    | extend t items _ _ _ => exact tableInv_extend t items
    | delete t p _ ih => exact tableInv_delete t p ih
    | clear t _ => exact tableInv_clear t
  · exact sortRows_spec

theorem c9_witness :
    tableInv ((MortonTable.new.insert (5, 5) 1).1.extend [((1, 2), 9), ((0, 0), 4)]) ∧
    (sortRows [(3, (1, 1), 2), (1, (0, 1), 0)]).Perm [(3, (1, 1), 2), (1, (0, 1), 0)] ∧
    (sortRows [(3, (1, 1), 2), (1, (0, 1), 0)]).Sorted rowLe := by
  refine ⟨?_, c9_sorted_parallel_arrays.2 [(3, (1, 1), 2), (1, (0, 1), 0)]⟩
  exact c9_sorted_parallel_arrays.1 _
    (Reachable.extend _ _ (Reachable.insert _ _ _ Reachable.new) (by decide))

theorem take_range' (m s n step : Nat) :
    (List.range' s n step).take m = List.range' s (min m n) step := by
  induction n generalizing s m with
  | zero => simp
  | succ n ih =>
    rw [List.range'_succ]
    cases m with
    | zero => simp
    | succ m =>
      rw [List.take_succ_cons, ih]
      have : min (m + 1) (n + 1) = min m n + 1 := by omega
      rw [this, List.range'_succ]

/-- Writing f applied to the elements of xs at successive slots n, n+1, ... of
base: characterization of the resulting slots. -/
theorem foldl_set_enumFrom (f : Nat → Nat) (xs : List Nat) : ∀ (n : Nat) (base : List Nat),
    n + xs.length ≤ base.length →
    ∀ i, ((xs.enumFrom n).foldl (fun sl ik => sl.set ik.1 (f ik.2)) base).getD i 0
      = if n ≤ i ∧ i < n + xs.length then f (xs.getD (i - n) 0) else base.getD i 0 := by
  induction xs with
  | nil =>
    intro n base _ i
    simp only [List.enumFrom, List.foldl_nil, List.length_nil]
    have : ¬ (n ≤ i ∧ i < n + 0) := by omega
    rw [if_neg this]
  | cons x rest ih =>
    intro n base hlen i
    show ((rest.enumFrom (n + 1)).foldl (fun sl ik => sl.set ik.1 (f ik.2)) (base.set n (f x))).getD i 0 = _
    have hlen2 : (n + 1) + rest.length ≤ (base.set n (f x)).length := by
      simp only [List.length_set]
      simp only [List.length_cons] at hlen
      omega
    rw [ih (n + 1) (base.set n (f x)) hlen2 i]
    by_cases h1 : (n + 1) ≤ i ∧ i < (n + 1) + rest.length
    · rw [if_pos h1, if_pos (by simp only [List.length_cons]; omega)]
      have he : i - n = (i - (n + 1)) + 1 := by omega
      rw [he]
      rfl
    · rw [if_neg h1]
      by_cases h2 : n ≤ i ∧ i < n + (x :: rest).length
      · rw [if_pos h2]
        have hin : i = n := by
          simp only [List.length_cons] at h2
          omega
        subst hin
        rw [List.getD_eq_getElem?_getD, List.getElem?_set]
        rw [if_pos rfl, if_pos (by simp only [List.length_cons] at hlen; omega)]
        simp
      · rw [if_neg h2]
        rw [List.getD_eq_getElem?_getD, List.getElem?_set]
        have hne : ¬ (n = i) := by
          simp only [List.length_cons] at h2
          omega
        rw [if_neg hne, ← List.getD_eq_getElem?_getD]

theorem rebuild_skipInv (t : MortonTable) (h8 : t.skiplist.length = 8) :
    skipInv t.rebuildSkipList := by
  unfold MortonTable.rebuildSkipList
  dsimp only
  by_cases hs : t.keys.length / 7 = 0
  · rw [if_pos hs]
    cases hl : t.keys.getLast? with
    | none =>
      have hnil : t.keys = [] := List.getLast?_eq_none_iff.mp hl
      refine ⟨hs ▸ rfl, ?_, ?_⟩
      · intro _ hne
        exact absurd hnil hne
      · intro hpos
        dsimp only at hpos
        omega
    | some k =>
      refine ⟨hs ▸ rfl, ?_, ?_⟩
      · intro _ hne
        show (t.skiplist.set 0 k).getD 0 0 = t.keys.getD (t.keys.length - 1) 0
        rw [List.getD_eq_getElem?_getD, List.getElem?_set, if_pos rfl, if_pos (by omega)]
        rw [List.getLast?_eq_getElem?] at hl
        rw [List.getD_eq_getElem?_getD, hl]
      · intro hpos
        dsimp only at hpos
        omega
  · rw [if_neg hs]
    refine ⟨rfl, ?_, ?_⟩
    · intro h0
      exact absurd h0 hs
    · intro _ i hi
      show ((((List.range' 0 ((t.keys.length + t.keys.length / 7 - 1) / (t.keys.length / 7))
          (t.keys.length / 7)).drop 1).take 8).enum.foldl
            (fun sl ik => sl.set ik.1 (t.keys.getD ik.2 0)) t.skiplist).getD i 0
          = t.keys.getD ((i + 1) * (t.keys.length / 7)) 0
      set len := t.keys.length with hlen
      set step := len / 7 with hstep
      set cnt := (len + step - 1) / step with hcnt
      have hstep1 : 1 ≤ step := by omega
      have hlen7 : 7 ≤ len := by
        by_contra hc
        rw [hstep] at hstep1
        rw [Nat.div_eq_of_lt (by omega)] at hstep1
        omega
      have hcnt1 : 1 ≤ cnt := by
        rw [hcnt]
        rw [Nat.one_le_div_iff (by omega)]
        omega
      have hsplit : List.range' 0 cnt step = 0 :: List.range' step (cnt - 1) step := by
        have hc : cnt = (cnt - 1) + 1 := by omega
        rw [hc, List.range'_succ]
        have hz : 0 + step = step := by omega
        rw [hz]
        simp
      rw [hsplit]
      have hdrop : ((0 :: List.range' step (cnt - 1) step).drop 1) = List.range' step (cnt - 1) step := rfl
      rw [hdrop, take_range']
      have henum : (List.range' step (min 8 (cnt - 1)) step).enum
          = (List.range' step (min 8 (cnt - 1)) step).enumFrom 0 := rfl
      rw [henum]
      have hxlen : (List.range' step (min 8 (cnt - 1)) step).length = min 8 (cnt - 1) := by
        simp [List.length_range']
      rw [foldl_set_enumFrom (fun k => t.keys.getD k 0) _ 0 t.skiplist (by omega)]
      have hiW : i < min 8 (cnt - 1) := hi
      rw [if_pos (by omega)]
      have hgd : (List.range' step (min 8 (cnt - 1)) step).getD (i - 0) 0 = step + step * i := by
        rw [List.getD_eq_getElem _ _ (by omega)]
        rw [List.getElem_range']
        simp
      rw [hgd]
      show t.keys.getD (step + step * i) 0 = t.keys.getD ((i + 1) * step) 0
      congr 1
      ring

theorem getD_set_ne {α : Type} (l : List α) (j i : Nat) (a d : α) (h : j ≠ i) :
    (l.set j a).getD i d = l.getD i d := by
  rw [List.getD_eq_getElem?_getD, List.getElem?_set, if_neg h, ← List.getD_eq_getElem?_getD]

/-- rebuild_skip_list writes only the skipSamples leading slots: every slot at
or beyond that count keeps its previous contents. -/
theorem rebuild_stale (t : MortonTable) (h8 : t.skiplist.length = 8) (i : Nat)
    (hi : skipSamples t.keys.length ≤ i) :
    t.rebuildSkipList.skiplist.getD i 0 = t.skiplist.getD i 0 := by
  unfold MortonTable.rebuildSkipList
  dsimp only
  by_cases hs : t.keys.length / 7 = 0
  · rw [if_pos hs]
    cases hl : t.keys.getLast? with
    | none => rfl
    | some k =>
      have hne : t.keys ≠ [] := by
        intro hnil
        rw [hnil] at hl
        simp at hl
      have hlen0 : t.keys.length ≠ 0 := fun h0 => hne (List.eq_nil_of_length_eq_zero h0)
      unfold skipSamples at hi
      rw [if_pos hs, if_neg hlen0] at hi
      show (t.skiplist.set 0 k).getD i 0 = t.skiplist.getD i 0
      exact getD_set_ne _ _ _ _ _ (by omega)
  · rw [if_neg hs]
    unfold skipSamples at hi
    rw [if_neg hs] at hi
    show ((((List.range' 0 ((t.keys.length + t.keys.length / 7 - 1) / (t.keys.length / 7))
        (t.keys.length / 7)).drop 1).take 8).enum.foldl
          (fun sl ik => sl.set ik.1 (t.keys.getD ik.2 0)) t.skiplist).getD i 0
        = t.skiplist.getD i 0
    set len := t.keys.length with hlen
    set step := len / 7 with hstep
    set cnt := (len + step - 1) / step with hcnt
    have hstep1 : 1 ≤ step := by omega
    have hlen7 : 7 ≤ len := by
      by_contra hc
      rw [hstep] at hstep1
      rw [Nat.div_eq_of_lt (by omega)] at hstep1
      omega
    have hcnt1 : 1 ≤ cnt := by
      rw [hcnt]
      rw [Nat.one_le_div_iff (by omega)]
      omega
    have hsplit : List.range' 0 cnt step = 0 :: List.range' step (cnt - 1) step := by
      have hc : cnt = (cnt - 1) + 1 := by omega
      rw [hc, List.range'_succ]
      have hz : 0 + step = step := by omega
      rw [hz]
      simp
    rw [hsplit]
    have hdrop : ((0 :: List.range' step (cnt - 1) step).drop 1)
        = List.range' step (cnt - 1) step := rfl
    rw [hdrop, take_range']
    have henum : (List.range' step (min 8 (cnt - 1)) step).enum
        = (List.range' step (min 8 (cnt - 1)) step).enumFrom 0 := rfl
    rw [henum]
    have hxlen : (List.range' step (min 8 (cnt - 1)) step).length = min 8 (cnt - 1) := by
      simp [List.length_range']
    rw [foldl_set_enumFrom (fun k => t.keys.getD k 0) _ 0 t.skiplist (by omega)]
    rw [if_neg (by omega)]

/-- insert rejects an out-of-range point, returning the point and an unchanged
table. -/
theorem insert_reject (t : MortonTable) (p : Point) (v : Value)
    (h : t.intersects p = false) : t.insert p v = (t, some p) := by
  unfold MortonTable.insert
  rw [h]
  rfl

/-- delete never touches the skip list or the skip step: the source performs
no rebuild there. -/
theorem delete_skip_untouched (t : MortonTable) (p : Point) :
    (t.delete p).1.skiplist = t.skiplist ∧ (t.delete p).1.skipstep = t.skipstep := by
  unfold MortonTable.delete
  by_cases hc : t.containsKey p = true
  · rw [if_neg (by simp [hc])]
    cases hf : t.findKey p with
    | ok ind => exact ⟨rfl, rfl⟩
    | error ind => exact ⟨rfl, rfl⟩
  · rw [if_pos (by simp [hc])]
    exact ⟨rfl, rfl⟩

/-- C4 (amended): with the 8 skip slots in place, insert of an accepted point
and extend rebuild the skip index to satisfy skipInv: step = N / 7 (division
by SKIP_LEN - 1, not N / 8), slot 0 holds the last key when step = 0, and
skiplist[i] = keys[(i+1)*step] for i below the sample count when step > 0.
The rebuild writes only the skipSamples leading slots and every slot at or
beyond that count keeps its previous contents.  insert of an out-of-range
point returns the table unchanged with the rejected point; clear zeroes the
samples and keeps the stale step; delete never touches skiplist or skipstep.
-/
theorem c4_amended_skip_index :
    (∀ (t : MortonTable) (p : Point) (v : Value), t.skiplist.length = 8 →
        t.intersects p = true → skipInv (t.insert p v).1) ∧
    (∀ (t : MortonTable) (p : Point) (v : Value), t.intersects p = false →
        t.insert p v = (t, some p)) ∧
    (∀ (t : MortonTable) (items : List (Point × Value)), t.skiplist.length = 8 →
        skipInv (t.extend items)) ∧
    (∀ (t : MortonTable) (i : Nat), t.skiplist.length = 8 →
        skipSamples t.keys.length ≤ i →
        t.rebuildSkipList.skiplist.getD i 0 = t.skiplist.getD i 0) ∧
    (∀ t : MortonTable, t.clear.keys = [] ∧ t.clear.skiplist = List.replicate 8 0 ∧
        t.clear.skipstep = t.skipstep) ∧
    (∀ (t : MortonTable) (p : Point),
        (t.delete p).1.skiplist = t.skiplist ∧ (t.delete p).1.skipstep = t.skipstep) := by
  refine ⟨?_, ?_, ?_, ?_, ?_, ?_⟩
  · intro t p v h8 hint
    unfold MortonTable.insert
    rw [hint]
    show skipInv (MortonTable.rebuildSkipList _)
    exact rebuild_skipInv _ h8
  · intro t p v h
    exact insert_reject t p v h
  · intro t items h8
    unfold MortonTable.extend
    exact rebuild_skipInv _ h8
  · intro t i h8 hi
    exact rebuild_stale t h8 i hi
  · intro t
    exact ⟨rfl, rfl, rfl⟩
  · intro t p
    exact delete_skip_untouched t p

theorem c4_amended_witness :
    skipInv ((MortonTable.new.insert (3, 4) 5).1) ∧
    (MortonTable.new.insert (40000, 0) 1 = (MortonTable.new, some (40000, 0))) ∧
    skipInv (MortonTable.extend MortonTable.new [((1, 2), 9), ((0, 0), 4)]) ∧
    ((MortonTable.new.insert (1, 0) 0).1.rebuildSkipList.skiplist.getD 1 0
      = (MortonTable.new.insert (1, 0) 0).1.skiplist.getD 1 0) ∧
    (MortonTable.new.clear.keys = [] ∧ MortonTable.new.clear.skiplist = List.replicate 8 0 ∧
      MortonTable.new.clear.skipstep = MortonTable.new.skipstep) ∧
    (((MortonTable.new.insert (1, 0) 0).1.delete (1, 0)).1.skiplist
        = (MortonTable.new.insert (1, 0) 0).1.skiplist ∧
      ((MortonTable.new.insert (1, 0) 0).1.delete (1, 0)).1.skipstep
        = (MortonTable.new.insert (1, 0) 0).1.skipstep) :=
  ⟨c4_amended_skip_index.1 MortonTable.new (3, 4) 5 rfl (by decide),
   c4_amended_skip_index.2.1 MortonTable.new (40000, 0) 1 (by decide),
   c4_amended_skip_index.2.2.1 MortonTable.new [((1, 2), 9), ((0, 0), 4)] rfl,
   c4_amended_skip_index.2.2.2.1 (MortonTable.new.insert (1, 0) 0).1 1 (by decide) (by decide),
   c4_amended_skip_index.2.2.2.2.1 MortonTable.new,
   c4_amended_skip_index.2.2.2.2.2 (MortonTable.new.insert (1, 0) 0).1 (1, 0)⟩

theorem spreadAux_stable : ∀ (f1 f2 n : Nat), n ≤ f1 → n ≤ f2 →
    spreadAux f1 n = spreadAux f2 n := by
  intro f1
  induction f1 with
  | zero =>
    intro f2 n h1 h2
    have : n = 0 := by omega
    subst this
    cases f2 <;> rfl
  | succ f ih =>
    intro f2 n h1 h2
    cases n with
    | zero => cases f2 <;> rfl
    | succ m =>
      cases f2 with
      | zero => omega
      | succ g =>
        show (m+1) % 2 + 4 * spreadAux f ((m+1) / 2) = (m+1) % 2 + 4 * spreadAux g ((m+1) / 2)
        rw [ih g ((m+1) / 2) (by omega) (by omega)]

theorem spreadR_rec (n : Nat) : spreadR n = n % 2 + 4 * spreadR (n / 2) := by
  cases n with
  | zero => rfl
  | succ m =>
    show spreadAux (m+1) (m+1) = (m+1) % 2 + 4 * spreadR ((m+1) / 2)
    show (m+1) % 2 + 4 * spreadAux m ((m+1) / 2) = (m+1) % 2 + 4 * spreadR ((m+1) / 2)
    rw [spreadAux_stable m ((m+1)/2) ((m+1)/2) (by omega) (by omega)]
    rfl

theorem testBit_spreadR (n : Nat) : ∀ (j : Nat),
    (spreadR n).testBit j = (decide (j % 2 = 0) && n.testBit (j / 2)) := by
  induction n using Nat.strong_induction_on with
  | _ n ih =>
    intro j
    rcases Nat.eq_zero_or_pos n with h0 | hpos
    · subst h0
      show (spreadR 0).testBit j = _
      simp [spreadR, spreadAux]
    · rw [spreadR_rec n]
      match j with
      | 0 =>
        rw [Nat.testBit_zero, Nat.testBit_zero]
        have he : (n % 2 + 4 * spreadR (n / 2)) % 2 = n % 2 := by omega
        rw [he]
        simp
      | 1 =>
        rw [Nat.testBit_to_div_mod]
        have he : (n % 2 + 4 * spreadR (n / 2)) / 2 ^ 1 % 2 = 0 := by
          have h2 : 2 ^ 1 = 2 := by norm_num
          rw [h2]
          omega
        rw [he]
        simp
      | j + 2 =>
        rw [Nat.testBit_add_one, Nat.testBit_add_one]
        have he : (n % 2 + 4 * spreadR (n / 2)) / 2 / 2 = spreadR (n / 2) := by omega
        rw [he, ih (n / 2) (by omega) j]
        have h1 : (j + 2) % 2 = j % 2 := by omega
        have h2 : (j + 2) / 2 = j / 2 + 1 := by omega
        rw [h1, h2, Nat.testBit_add_one]

theorem spreadR_strictMono : ∀ (b a : Nat), a < b → spreadR a < spreadR b := by
  intro b
  induction b using Nat.strong_induction_on with
  | _ b ih =>
    intro a hab
    rw [spreadR_rec a, spreadR_rec b]
    rcases Nat.lt_or_ge (a / 2) (b / 2) with h | h
    · have := ih (b / 2) (by omega) (a / 2) h
      omega
    · have h2 : a / 2 = b / 2 := by omega
      rw [h2]
      omega

theorem spreadR_mono {a b : Nat} (h : a ≤ b) : spreadR a ≤ spreadR b := by
  rcases Nat.eq_or_lt_of_le h with he | hlt
  · rw [he]
  · exact Nat.le_of_lt (spreadR_strictMono b a hlt)

theorem partition_eq_spreadR (n : Nat) (hn : n < 65536) :
    MortonKey.partition n = spreadR n := by
  apply Nat.eq_of_testBit_eq
  intro j
  rw [MortonKey.testBit_partition n hn j, testBit_spreadR n j]

theorem morton2_eq (x y : Nat) (hx : x < 65536) (hy : y < 65536) :
    MortonKey.morton2 x y = spreadR x + 2 * spreadR y := by
  show MortonKey.partition x + (MortonKey.partition y <<< 1) = _
  rw [partition_eq_spreadR x hx, partition_eq_spreadR y hy, Nat.shiftLeft_eq]
  ring

/-- Componentwise monotonicity of the Morton encoding on 16-bit coordinates. -/
theorem new_mono {x1 y1 x2 y2 : Nat} (hx2 : x2 < 65536) (hy2 : y2 < 65536)
    (hx : x1 ≤ x2) (hy : y1 ≤ y2) : MortonKey.new x1 y1 ≤ MortonKey.new x2 y2 := by
  show MortonKey.morton2 (x1 % 65536) (y1 % 65536) ≤ MortonKey.morton2 (x2 % 65536) (y2 % 65536)
  rw [morton2_eq _ _ (by omega) (by omega), morton2_eq _ _ (by omega) (by omega)]
  have e1 : x1 % 65536 = x1 := Nat.mod_eq_of_lt (by omega)
  have e2 : y1 % 65536 = y1 := Nat.mod_eq_of_lt (by omega)
  have e3 : x2 % 65536 = x2 := Nat.mod_eq_of_lt hx2
  have e4 : y2 % 65536 = y2 := Nat.mod_eq_of_lt hy2
  rw [e1, e2, e3, e4]
  have := spreadR_mono hx
  have := spreadR_mono hy
  omega

/-- The Morton encoding is injective on 16-bit coordinates. -/
theorem new_inj {x1 y1 x2 y2 : Nat} (hx1 : x1 < 65536) (hy1 : y1 < 65536)
    (hx2 : x2 < 65536) (hy2 : y2 < 65536)
    (h : MortonKey.new x1 y1 = MortonKey.new x2 y2) : x1 = x2 ∧ y1 = y2 := by
  have h1 := MortonKey.asPoint_new x1 y1 hx1 hy1
  have h2 := MortonKey.asPoint_new x2 y2 hx2 hy2
  rw [h] at h1
  rw [h1] at h2
  exact ⟨(Prod.mk.injEq _ _ _ _ ▸ h2).1, (Prod.mk.injEq _ _ _ _ ▸ h2).2⟩

/-- The Z-table bounds check accepts exactly the points with 15-bit
coordinates. -/
theorem intersects_iff (t : MortonTable) (p : Point) :
    t.intersects p = true ↔ p.1 < 32768 ∧ p.2 < 32768 := by
  have e1 : p.1 &&& 32767 = p.1 % 32768 := Nat.and_pow_two_sub_one_eq_mod p.1 15
  have e2 : p.2 &&& 32767 = p.2 % 32768 := Nat.and_pow_two_sub_one_eq_mod p.2 15
  show ((p.1 &&& 32767 == p.1) && (p.2 &&& 32767 == p.2)) = true ↔ _
  rw [Bool.and_eq_true, beq_iff_eq, beq_iff_eq, e1, e2]
  omega

theorem zip_map_triple (S : List (Point × Value)) :
    (S.map (fun pv => MortonKey.new pv.1.1 pv.1.2)).zip ((S.map Prod.fst).zip (S.map Prod.snd))
      = S.map toRow := by
  induction S with
  | nil => rfl
  | cons x xs ih => simp only [List.map_cons, List.zip_cons_cons, ih, toRow]

theorem fromIterator_components (S : List (Point × Value)) :
    (MortonTable.fromIterator S).keys = (rowsOf S).map (fun r => r.1) ∧
    (MortonTable.fromIterator S).positions = (rowsOf S).map (fun r => r.2.1) ∧
    (MortonTable.fromIterator S).values = (rowsOf S).map (fun r => r.2.2) := by
  unfold MortonTable.fromIterator MortonTable.extend MortonTable.new
  dsimp only
  rw [List.nil_append, List.nil_append, List.nil_append, zip_map_triple]
  refine ⟨?_, ?_, ?_⟩
  · rw [(rebuild_components _).1]
    rfl
  · rw [(rebuild_components _).2.1]
    rfl
  · rw [(rebuild_components _).2.2]
    rfl

theorem rebuild_skipstep (t : MortonTable) :
    t.rebuildSkipList.skipstep = t.keys.length / 7 := by
  unfold MortonTable.rebuildSkipList
  dsimp only
  split
  · split <;> rfl
  · rfl

theorem rowsOf_perm (S : List (Point × Value)) : (rowsOf S).Perm (S.map toRow) :=
  (sortRows_spec (S.map toRow)).1

theorem rowsOf_sorted (S : List (Point × Value)) : (rowsOf S).Sorted rowLe :=
  (sortRows_spec (S.map toRow)).2

theorem rowsOf_length (S : List (Point × Value)) : (rowsOf S).length = S.length := by
  rw [(rowsOf_perm S).length_eq, List.length_map]

theorem fromIterator_keys_length (S : List (Point × Value)) :
    (MortonTable.fromIterator S).keys.length = S.length := by
  rw [(fromIterator_components S).1, List.length_map, rowsOf_length]

theorem fromIterator_skipstep (S : List (Point × Value)) (h : S.length ≤ 6) :
    (MortonTable.fromIterator S).skipstep = 0 := by
  show (MortonTable.extend MortonTable.new S).skipstep = 0
  unfold MortonTable.extend
  dsimp only
  rw [rebuild_skipstep]
  dsimp only
  rw [List.length_map]
  have hl : (sortRows ((MortonTable.new.keys ++ S.map fun pv => MortonKey.new pv.1.1 pv.1.2).zip
      ((MortonTable.new.positions ++ S.map Prod.fst).zip
        (MortonTable.new.values ++ S.map Prod.snd)))).length ≤ 6 := by
    show (sortRows _).length ≤ 6
    rw [(sortRows_spec _).1.length_eq]
    calc (List.zip _ _).length ≤ (MortonTable.new.keys ++ S.map fun pv =>
        MortonKey.new pv.1.1 pv.1.2).length := by
          rw [List.length_zip]
          exact Nat.min_le_left _ _
      _ = S.length := by simp [MortonTable.new]
      _ ≤ 6 := h
  omega

theorem fromIterator_keys_sorted (S : List (Point × Value)) :
    (MortonTable.fromIterator S).keys.Sorted (fun a b => a ≤ b) := by
  rw [(fromIterator_components S).1]
  exact List.Pairwise.map _ (fun a b hab => hab) (rowsOf_sorted S)

theorem map_getD {α β : Type} (f : α → β) (l : List α) (d : α) (i : Nat) (h : i < l.length) :
    (l.map f).getD i (f d) = f (l.getD i d) := by
  rw [List.getD_eq_getElem _ _ (by simpa using h), List.getD_eq_getElem _ _ h, List.getElem_map]

theorem getD_mem {α : Type} (l : List α) (d : α) (i : Nat) (h : i < l.length) :
    l.getD i d ∈ l := by
  rw [List.getD_eq_getElem _ _ h]
  exact List.getElem_mem h

theorem mem_rowsOf (S : List (Point × Value)) (r : Row) :
    r ∈ rowsOf S ↔ ∃ pv ∈ S, r = toRow pv := by
  rw [(rowsOf_perm S).mem_iff, List.mem_map]
  constructor
  · rintro ⟨pv, hpv, he⟩
    exact ⟨pv, hpv, he.symm⟩
  · rintro ⟨pv, hpv, he⟩
    exact ⟨pv, hpv, he.symm⟩

set_option maxHeartbeats 1000000 in
theorem fromIterator_row (S : List (Point × Value)) (i : Nat) (hi : i < S.length) :
    (MortonTable.fromIterator S).keys.getD i 0 = ((rowsOf S).getD i dfltRow).1 ∧
    (MortonTable.fromIterator S).positions.getD i (0, 0) = ((rowsOf S).getD i dfltRow).2.1 ∧
    (MortonTable.fromIterator S).values.getD i 0 = ((rowsOf S).getD i dfltRow).2.2 := by
  obtain ⟨e1, e2, e3⟩ := fromIterator_components S
  have hlen : i < (rowsOf S).length := by rw [rowsOf_length]; exact hi
  refine ⟨?_, ?_, ?_⟩
  · rw [e1]
    exact map_getD (fun r : Row => r.1) (rowsOf S) dfltRow i hlen
  · rw [e2]
    exact map_getD (fun r : Row => r.2.1) (rowsOf S) dfltRow i hlen
  · rw [e3]
    exact map_getD (fun r : Row => r.2.2) (rowsOf S) dfltRow i hlen

theorem fromIterator_keys_nodup (S : List (Point × Value))
    (hrange : ∀ pv ∈ S, pv.1.1 < 32768 ∧ pv.1.2 < 32768)
    (hnodup : (S.map Prod.fst).Nodup) : (MortonTable.fromIterator S).keys.Nodup := by
  rw [(fromIterator_components S).1]
  have hperm : ((rowsOf S).map (fun r => r.1)).Perm ((S.map toRow).map (fun r => r.1)) :=
    (rowsOf_perm S).map _
  apply hperm.nodup_iff.mpr
  have hinj := List.inj_on_of_nodup_map hnodup
  apply List.Nodup.map_on
  · intro r1 h1 r2 h2 h12
    obtain ⟨p1, hp1, he1⟩ := List.mem_map.mp h1
    obtain ⟨p2, hp2, he2⟩ := List.mem_map.mp h2
    rw [← he1, ← he2] at h12 ⊢
    have hb1 := hrange p1 hp1
    have hb2 := hrange p2 hp2
    have hk : MortonKey.new p1.1.1 p1.1.2 = MortonKey.new p2.1.1 p2.1.2 := h12
    have hco := new_inj (by omega) (by omega) (by omega) (by omega) hk
    have hp : p1.1 = p2.1 := Prod.ext hco.1 hco.2
    rw [hinj hp1 hp2 hp]
  · apply List.Nodup.map_on
    · intro p1 hp1 p2 hp2 h12
      have h1 : p1.1 = p2.1 := congrArg (fun r : Row => r.2.1) h12
      have h2 : p1.2 = p2.2 := congrArg (fun r : Row => r.2.2) h12
      exact Prod.ext h1 h2
    · exact List.Nodup.of_map _ hnodup

theorem fromIterator_keys_strict (S : List (Point × Value))
    (hrange : ∀ pv ∈ S, pv.1.1 < 32768 ∧ pv.1.2 < 32768)
    (hnodup : (S.map Prod.fst).Nodup) (i j : Nat) (hij : i < j) (hj : j < S.length) :
    (MortonTable.fromIterator S).keys.getD i 0 < (MortonTable.fromIterator S).keys.getD j 0 := by
  have hlen := fromIterator_keys_length S
  have hle := sorted_getD_mono _ (fromIterator_keys_sorted S) i j (by omega) (by omega)
  rcases Nat.eq_or_lt_of_le hle with he | hlt
  · exfalso
    have hnd := fromIterator_keys_nodup S hrange hnodup
    rw [List.getD_eq_getElem _ _ (by omega), List.getD_eq_getElem _ _ (by omega)] at he
    have := (List.Nodup.getElem_inj_iff hnd).mp he
    omega
  · exact hlt

theorem qinsert_leaf (fuel : Nat) (l h : Point) (items : List (Point × Value))
    (p : Point) (v : Value) (hint : (QTree.leaf l h items).intersects p = true)
    (hcap : items.length < 16) :
    QTree.insert (fuel + 1) (.leaf l h items) p v = (.leaf l h (items ++ [(p, v)]), true) := by
  rw [QTree.insert, hint]
  simp only [Bool.not_true, Bool.false_eq_true, if_false]
  rw [show LEN_CHILDREN = 16 from rfl, if_pos hcap]

theorem qtree_extend_leaf : ∀ (S L : List (Point × Value)),
    (∀ pv ∈ S, pv.1.1 ≤ 65535 ∧ pv.1.2 ≤ 65535) → L.length + S.length ≤ 16 →
    QTree.extend (.leaf (0, 0) (0xffff, 0xffff) L) S
      = .leaf (0, 0) (0xffff, 0xffff) (L ++ S) := by
  intro S
  induction S with
  | nil =>
    intro L _ _
    show (QTree.leaf _ _ L : QTree) = _
    rw [List.append_nil]
  | cons pv rest ih =>
    intro L hr hlen
    rw [List.length_cons] at hlen
    show QTree.extend _ (pv :: rest) = _
    unfold QTree.extend
    rw [List.foldl_cons]
    have hb := hr pv (List.mem_cons_self _ _)
    have hint : (QTree.leaf ((0 : Nat), (0 : Nat)) ((0xffff : Nat), (0xffff : Nat)) L).intersects
        pv.1 = true := by
      simp only [QTree.intersects, QTree.lo, QTree.hi, Bool.and_eq_true, decide_eq_true_eq]
      refine ⟨⟨⟨?_, ?_⟩, ?_⟩, ?_⟩ <;> omega
    rw [show QTree.insertFuel = 255 + 1 from rfl,
      qinsert_leaf 255 _ _ _ _ _ hint (by omega)]
    show QTree.extend (.leaf (0, 0) (0xffff, 0xffff) (L ++ [pv])) rest = _
    rw [ih (L ++ [pv]) (fun q hq => hr q (List.mem_cons_of_mem _ hq))
      (by simp only [List.length_append, List.length_cons, List.length_nil]
          omega)]
    rw [List.append_assoc]
    rfl

theorem qtree_contains_eq (S : List (Point × Value))
    (hrange : ∀ pv ∈ S, pv.1.1 < 32768 ∧ pv.1.2 < 32768) (hlen : S.length ≤ 16) (q : Point) :
    (QTree.extend QTree.dflt S).containsKey q = decide (q ∈ S.map Prod.fst) := by
  have hext := qtree_extend_leaf S [] (fun pv hm => by have := hrange pv hm; omega)
    (by simpa using hlen)
  show (QTree.extend (.leaf (0, 0) (0xffff, 0xffff) []) S).containsKey q = _
  rw [hext, List.nil_append, QTree.containsKey]
  by_cases hq : q.1 ≤ 65535 ∧ q.2 ≤ 65535
  · have hint : (QTree.leaf ((0 : Nat), (0 : Nat)) ((0xffff : Nat), (0xffff : Nat)) S).intersects
        q = true := by
      simp only [QTree.intersects, QTree.lo, QTree.hi, Bool.and_eq_true, decide_eq_true_eq]
      refine ⟨⟨⟨?_, ?_⟩, ?_⟩, ?_⟩ <;> omega
    rw [hint]
    simp only [Bool.not_true, Bool.false_eq_true, if_false]
    by_cases hm : q ∈ S.map Prod.fst
    · rw [decide_eq_true hm]
      obtain ⟨pv, hpv, he⟩ := List.mem_map.mp hm
      exact List.any_eq_true.mpr ⟨pv, hpv, by rw [beq_iff_eq]; exact he⟩
    · rw [decide_eq_false hm]
      apply List.any_eq_false.mpr
      intro pv hpv hbe
      exact hm (List.mem_map.mpr ⟨pv, hpv, by rwa [beq_iff_eq] at hbe⟩)
  · have hint : (QTree.leaf ((0 : Nat), (0 : Nat)) ((0xffff : Nat), (0xffff : Nat)) S).intersects
        q = false := by
      simp only [QTree.intersects, QTree.lo, QTree.hi]
      simp only [Bool.and_eq_false_iff, decide_eq_false_iff_not]
      omega
    rw [hint]
    have hm : ¬ (q ∈ S.map Prod.fst) := by
      intro hmem
      obtain ⟨pv, hpv, he⟩ := List.mem_map.mp hmem
      have := hrange pv hpv
      rw [he] at this
      omega
    rw [decide_eq_false hm]
    rfl

theorem qtree_getById_eq (S : List (Point × Value))
    (hrange : ∀ pv ∈ S, pv.1.1 < 32768 ∧ pv.1.2 < 32768) (hlen : S.length ≤ 16) (q : Point) :
    (QTree.extend QTree.dflt S).getById q
      = (S.find? (fun pv => pv.1 == q)).map Prod.snd := by
  have hext := qtree_extend_leaf S [] (fun pv hm => by have := hrange pv hm; omega)
    (by simpa using hlen)
  show (QTree.extend (.leaf (0, 0) (0xffff, 0xffff) []) S).getById q = _
  rw [hext, List.nil_append, QTree.getById]
  by_cases hq : q.1 ≤ 65535 ∧ q.2 ≤ 65535
  · have hint : (QTree.leaf ((0 : Nat), (0 : Nat)) ((0xffff : Nat), (0xffff : Nat)) S).intersects
        q = true := by
      simp only [QTree.intersects, QTree.lo, QTree.hi, Bool.and_eq_true, decide_eq_true_eq]
      refine ⟨⟨⟨?_, ?_⟩, ?_⟩, ?_⟩ <;> omega
    rw [hint]
    rfl
  · have hint : (QTree.leaf ((0 : Nat), (0 : Nat)) ((0xffff : Nat), (0xffff : Nat)) S).intersects
        q = false := by
      simp only [QTree.intersects, QTree.lo, QTree.hi]
      simp only [Bool.and_eq_false_iff, decide_eq_false_iff_not]
      omega
    rw [hint]
    have hfind : S.find? (fun pv => pv.1 == q) = none := by
      rw [List.find?_eq_none]
      intro pv hpv
      have := hrange pv hpv
      rw [beq_iff_eq]
      intro he
      rw [he] at this
      omega
    rw [hfind]
    rfl

theorem findKeyMorton_step0 (t : MortonTable) (h : t.skipstep = 0) (k : Nat) :
    t.findKeyMorton k = binarySearch t.keys k := by
  unfold MortonTable.findKeyMorton
  dsimp only
  rw [h, if_pos rfl]

theorem intersects_false_of (t : MortonTable) (q : Point)
    (hq : ¬ (q.1 < 32768 ∧ q.2 < 32768)) : t.intersects q = false := by
  cases hb : t.intersects q with
  | false => rfl
  | true => exact absurd ((intersects_iff t q).mp hb) hq

theorem not_mem_fst_of_out (S : List (Point × Value))
    (hrange : ∀ pv ∈ S, pv.1.1 < 32768 ∧ pv.1.2 < 32768) (q : Point)
    (hq : ¬ (q.1 < 32768 ∧ q.2 < 32768)) : ¬ (q ∈ S.map Prod.fst) := by
  intro hmem
  obtain ⟨pv, hpv, he⟩ := List.mem_map.mp hmem
  have := hrange pv hpv
  rw [he] at this
  exact hq this

/-- On a step-0 table built from distinct in-range pairs, the presence of a key
in the sorted key array coincides with the presence of the point among the
stored pairs. -/
theorem fromIterator_key_mem (S : List (Point × Value))
    (hrange : ∀ pv ∈ S, pv.1.1 < 32768 ∧ pv.1.2 < 32768) (q : Point)
    (hq : q.1 < 32768 ∧ q.2 < 32768) :
    MortonKey.new q.1 q.2 ∈ (MortonTable.fromIterator S).keys ↔ q ∈ S.map Prod.fst := by
  rw [(fromIterator_components S).1]
  constructor
  · intro hmem
    obtain ⟨r, hr, hre⟩ := List.mem_map.mp hmem
    obtain ⟨pv, hpv, hepv⟩ := (mem_rowsOf S r).mp hr
    have hb := hrange pv hpv
    have hk2 : MortonKey.new pv.1.1 pv.1.2 = MortonKey.new q.1 q.2 := by
      rw [← hre, hepv]
      rfl
    have hco := new_inj (by omega) (by omega) (by omega) (by omega) hk2
    exact List.mem_map.mpr ⟨pv, hpv, Prod.ext hco.1 hco.2⟩
  · intro hmem
    obtain ⟨pv, hpv, he⟩ := List.mem_map.mp hmem
    have hrmem : toRow pv ∈ rowsOf S := (mem_rowsOf S _).mpr ⟨pv, hpv, rfl⟩
    have he2 : (toRow pv).1 = MortonKey.new q.1 q.2 := by
      show MortonKey.new pv.1.1 pv.1.2 = MortonKey.new q.1 q.2
      rw [he]
    exact List.mem_map.mpr ⟨toRow pv, hrmem, he2⟩

theorem fromIterator_contains_eq (S : List (Point × Value))
    (hrange : ∀ pv ∈ S, pv.1.1 < 32768 ∧ pv.1.2 < 32768)
    (hnodup : (S.map Prod.fst).Nodup) (hlen : S.length ≤ 6) (q : Point) :
    (MortonTable.fromIterator S).containsKey q = decide (q ∈ S.map Prod.fst) := by
  by_cases hq : q.1 < 32768 ∧ q.2 < 32768
  · unfold MortonTable.containsKey
    rw [(intersects_iff _ q).mpr hq]
    simp only [Bool.not_true, Bool.false_eq_true, if_false]
    rw [show (MortonTable.fromIterator S).findKey q
        = binarySearch (MortonTable.fromIterator S).keys (MortonKey.new q.1 q.2) from
      findKeyMorton_step0 _ (fromIterator_skipstep S hlen) _]
    cases hbs : binarySearch (MortonTable.fromIterator S).keys (MortonKey.new q.1 q.2) with
    | ok i =>
      have hspec := binarySearch_spec (MortonTable.fromIterator S).keys
        (MortonKey.new q.1 q.2) (fromIterator_keys_sorted S)
      rw [hbs] at hspec
      obtain ⟨hilt, hkey⟩ := hspec
      have hmem : MortonKey.new q.1 q.2 ∈ (MortonTable.fromIterator S).keys := by
        rw [← hkey]
        exact getD_mem _ _ _ hilt
      rw [decide_eq_true ((fromIterator_key_mem S hrange q hq).mp hmem)]
    | error i =>
      have hnm := (binarySearch_mem (MortonTable.fromIterator S).keys
        (MortonKey.new q.1 q.2) (fromIterator_keys_sorted S)).2 i hbs
      have hm : ¬ (q ∈ S.map Prod.fst) := fun hmem =>
        hnm ((fromIterator_key_mem S hrange q hq).mpr hmem)
      rw [decide_eq_false hm]
  · unfold MortonTable.containsKey
    rw [intersects_false_of _ q hq, decide_eq_false (not_mem_fst_of_out S hrange q hq)]
    rfl

theorem fromIterator_getById_eq (S : List (Point × Value))
    (hrange : ∀ pv ∈ S, pv.1.1 < 32768 ∧ pv.1.2 < 32768)
    (hnodup : (S.map Prod.fst).Nodup) (hlen : S.length ≤ 6) (q : Point) :
    (MortonTable.fromIterator S).getById q
      = (S.find? (fun pv => pv.1 == q)).map Prod.snd := by
  have hinj := List.inj_on_of_nodup_map hnodup
  by_cases hq : q.1 < 32768 ∧ q.2 < 32768
  · unfold MortonTable.getById
    rw [(intersects_iff _ q).mpr hq]
    simp only [Bool.not_true, Bool.false_eq_true, if_false]
    rw [show (MortonTable.fromIterator S).findKey q
        = binarySearch (MortonTable.fromIterator S).keys (MortonKey.new q.1 q.2) from
      findKeyMorton_step0 _ (fromIterator_skipstep S hlen) _]
    cases hbs : binarySearch (MortonTable.fromIterator S).keys (MortonKey.new q.1 q.2) with
    | ok i =>
      have hspec := binarySearch_spec (MortonTable.fromIterator S).keys
        (MortonKey.new q.1 q.2) (fromIterator_keys_sorted S)
      rw [hbs] at hspec
      obtain ⟨hilt, hkey⟩ := hspec
      have hilen : i < S.length := by
        rw [← fromIterator_keys_length S]
        exact hilt
      obtain ⟨hrk, hrp, hrv⟩ := fromIterator_row S i hilen
      have hmem : (rowsOf S).getD i dfltRow ∈ rowsOf S :=
        getD_mem _ _ _ (by rw [rowsOf_length]; exact hilen)
      obtain ⟨pv, hpv, hepv⟩ := (mem_rowsOf S _).mp hmem
      have hb := hrange pv hpv
      have hk2 : MortonKey.new pv.1.1 pv.1.2 = MortonKey.new q.1 q.2 := by
        rw [← hkey, hrk, hepv]
        rfl
      have hco := new_inj (by omega) (by omega) (by omega) (by omega) hk2
      have hpq : pv.1 = q := Prod.ext hco.1 hco.2
      have hex : ∃ y, S.find? (fun pv => pv.1 == q) = some y :=
        Option.isSome_iff_exists.mp (List.find?_isSome.mpr
          ⟨pv, hpv, by rw [beq_iff_eq]; exact hpq⟩)
      obtain ⟨e, he⟩ := hex
      have hee : e ∈ S := List.mem_of_find?_eq_some he
      have hep : e.1 = q := by
        have := List.find?_some he
        rwa [beq_iff_eq] at this
      have hepv2 : e = pv := hinj hee hpv (by rw [hep, hpq])
      rw [he]
      show some ((MortonTable.fromIterator S).values.getD i 0) = some e.2
      rw [hrv, hepv, hepv2]
      rfl
    | error i =>
      have hnm := (binarySearch_mem (MortonTable.fromIterator S).keys
        (MortonKey.new q.1 q.2) (fromIterator_keys_sorted S)).2 i hbs
      have hm : ¬ (q ∈ S.map Prod.fst) := fun hmem =>
        hnm ((fromIterator_key_mem S hrange q hq).mpr hmem)
      have hfind : S.find? (fun pv => pv.1 == q) = none := by
        rw [List.find?_eq_none]
        intro pv hpv
        rw [beq_iff_eq]
        intro he
        exact hm (List.mem_map.mpr ⟨pv, hpv, he⟩)
      rw [hfind]
      rfl
  · unfold MortonTable.getById
    rw [intersects_false_of _ q hq]
    have hfind : S.find? (fun pv => pv.1 == q) = none := by
      rw [List.find?_eq_none]
      intro pv hpv
      rw [beq_iff_eq]
      intro he
      exact (not_mem_fst_of_out S hrange q hq) (List.mem_map.mpr ⟨pv, hpv, he⟩)
    rw [hfind]
    rfl

/-- C6 (amended): loading at most 6 pairs with distinct in-range points into
fresh instances of both structures, contains_key and get_by_id return
identical results on every query point.  The find_in_range results are not
identical: the Z-table admits a hit only at distance strictly below the
radius while the quadtree also admits distance equal to the radius, so the
two result sets differ at the circle boundary. -/
theorem c6_amended (S : List (Point × Value))
    (hrange : ∀ pv ∈ S, pv.1.1 < 32768 ∧ pv.1.2 < 32768)
    (hnodup : (S.map Prod.fst).Nodup) (hlen : S.length ≤ 6) :
    (∀ q : Point, (MortonTable.fromIterator S).containsKey q
        = (QTree.extend QTree.dflt S).containsKey q) ∧
    (∀ q : Point, (MortonTable.fromIterator S).getById q
        = (QTree.extend QTree.dflt S).getById q) := by
  constructor
  · intro q
    rw [fromIterator_contains_eq S hrange hnodup hlen q,
      qtree_contains_eq S hrange (by omega) q]
  · intro q
    rw [fromIterator_getById_eq S hrange hnodup hlen q,
      qtree_getById_eq S hrange (by omega) q]

/-- Witness for the amended C6 at a concrete two-entry input. -/
theorem c6_amended_witness :
    ((MortonTable.fromIterator [(((1 : Nat), (0 : Nat)), (7 : Nat)),
        (((3 : Nat), (4 : Nat)), (9 : Nat))]).containsKey (1, 0)
      = (QTree.extend QTree.dflt [(((1 : Nat), (0 : Nat)), (7 : Nat)),
        (((3 : Nat), (4 : Nat)), (9 : Nat))]).containsKey (1, 0)) ∧
    ((MortonTable.fromIterator [(((1 : Nat), (0 : Nat)), (7 : Nat)),
        (((3 : Nat), (4 : Nat)), (9 : Nat))]).getById (3, 4)
      = (QTree.extend QTree.dflt [(((1 : Nat), (0 : Nat)), (7 : Nat)),
        (((3 : Nat), (4 : Nat)), (9 : Nat))]).getById (3, 4)) := by
  have h := c6_amended [(((1 : Nat), (0 : Nat)), (7 : Nat)), (((3 : Nat), (4 : Nat)), (9 : Nat))]
    (by decide) (by decide) (by decide)
  exact ⟨h.1 (1, 0), h.2 (3, 4)⟩

/-- C7: for every pair of 16-bit values, decoding the Morton key produced by
encoding recovers the original pair: MortonKey::new(x, y).as_point() = [x, y].
-/
theorem c7_encode_decode (x y : Nat) (hx : x < 65536) (hy : y < 65536) :
    MortonKey.asPoint (MortonKey.new x y) = (x, y) :=
  MortonKey.asPoint_new x y hx hy

/-- Witness for C7 at a concrete pair. -/
theorem c7_witness : MortonKey.asPoint (MortonKey.new 12345 54321) = (12345, 54321) :=
  c7_encode_decode 12345 54321 (by decide) (by decide)